import Mathlib

set_option autoImplicit false

/-!
Verification of the solace-scaffold processing pipeline: the weighting and
integrity chambers, the contradiction-lattice graph memory, and the
fingerprint / drift monitor, shallowly embedded from the Python sources.
Machine floats are modelled as exact rationals, Python dicts as
insertion-ordered association lists, and calls that raise in Python are
modelled in `Except`.
-/

namespace Solace

/-! ## Tokenization (src/weight/advanced_chamber.py, `WeightChamber._tokenize`)

The source computes `set(re.findall(r"\w+", str(text).lower()))`: lowercase
the text, then collect the set of maximal runs of word characters.  The word
class is modelled on the ASCII range (letters, digits, underscore); Python's
`\w` additionally matches non-ASCII word characters. -/

def isWordChar (c : Char) : Bool := c.isAlphanum || c = '_'

/-- Maximal runs of word characters of a character list, in order.  `cur` is
the reversed run currently being read. -/
def wordRunsAux (cur : List Char) : List Char → List (List Char)
  | [] => if cur.isEmpty then [] else [cur.reverse]
  | c :: cs =>
    if isWordChar c then wordRunsAux (c :: cur) cs
    else if cur.isEmpty then wordRunsAux [] cs
    else cur.reverse :: wordRunsAux [] cs

/-- `WeightChamber._tokenize`: the set of lowercased word tokens of a string. -/
def tokenize (s : String) : Finset String :=
  ((wordRunsAux [] s.toLower.data).map fun r => String.mk r).toFinset

/-- `WeightChamber._jaccard_distance`: `1 - |a ∩ b| / |a ∪ b|`, and `0` when
the union is empty. -/
def jaccard_distance (a b : Finset String) : ℚ :=
  if a ∪ b = ∅ then 0 else 1 - ((a ∩ b).card : ℚ) / ((a ∪ b).card : ℚ)

/-! ## Weighting stage (src/weight/advanced_chamber.py) -/

/-- `WeightedInput` dataclass.  `content` is `Any` in the source; it is
modelled as the string the tokenizer sees (`str(content)`). -/
structure WeightedInput where
  content : String
  weight : ℚ
  epistemic_debt : ℚ
deriving DecidableEq, Repr

/-- `WeightChamber` state: Beta-prior parameters and the history of token
sets of previously seen items. -/
structure WeightChamber where
  alpha : ℚ
  beta : ℚ
  history : List (Finset String)
deriving DecidableEq

/-- `WeightChamber()` with default priors `alpha = beta = 2.0`. -/
def WeightChamber.default : WeightChamber := ⟨2, 2, []⟩

/-- `max(0.0, min(1.0, x))`. -/
def clamp01 (x : ℚ) : ℚ := max 0 (min 1 x)

/-- `WeightChamber.assign`.  The source draws
`beta_sample = random.betavariate(self.alpha, self.beta)`; the embedding is
deterministic, so the draw is passed explicitly as `betaSample`.  Returns
the produced `WeightedInput` together with the updated chamber (the source
mutates `self._history` in place). -/
def WeightChamber.assign (wc : WeightChamber) (content : String)
    (contradiction_metric : Option ℚ) (betaSample : ℚ) :
    WeightedInput × WeightChamber :=
  let tokens := tokenize content
  let base_tension : ℚ :=
    match contradiction_metric with
    | some m => clamp01 m
    | none =>
      if wc.history.isEmpty then 1/2
      else ((wc.history.map fun h => jaccard_distance tokens h).sum) / wc.history.length
  let tension := clamp01 ((base_tension + betaSample) / 2)
  (⟨content, tension, tension⟩, { wc with history := wc.history ++ [tokens] })

/-! ## Pattern data (src/pattern/advanced_chamber.py)

Only the `Pattern` dataclass is needed by the claims; the clustering routine
`PatternChamber.construct_patterns` is not the subject of any claim. -/

/-- `Pattern` dataclass of the advanced pattern chamber. -/
structure Pattern where
  items : List WeightedInput
  average_tension : ℚ
  total_debt : ℚ
deriving DecidableEq, Repr

/-! ## Filter stage (src/integrity/advanced_chamber.py) -/

/-- `IntegrityChamber` of the advanced (dual-threshold) variant, after its
`__init__` has applied `setdefault`: both thresholds are always present. -/
structure IntegrityChamber where
  max_tension : ℚ
  max_debt : ℚ
deriving DecidableEq

/-- `IntegrityChamber(values)`: `setdefault("max_tension", 0.7)` and
`setdefault("max_debt", 1.5)`. -/
def IntegrityChamber.init (max_tension max_debt : Option ℚ) : IntegrityChamber :=
  ⟨max_tension.getD (7/10), max_debt.getD (3/2)⟩

/-- `IntegrityChamber.evaluate`: one pass over the patterns appending each to
`accepted` or `rejected`. -/
def IntegrityChamber.evaluate (c : IntegrityChamber) (patterns : List Pattern) :
    List Pattern × List Pattern :=
  patterns.foldl
    (fun acc p =>
      if p.average_tension ≤ c.max_tension ∧ p.total_debt ≤ c.max_debt then
        (acc.1 ++ [p], acc.2)
      else
        (acc.1, acc.2 ++ [p]))
    ([], [])

/-! ## Basic (single-threshold) filter (src/integrity/chamber.py)

The basic variant works over the basic `WeightedInput`/`Pattern` dataclasses
(src/weight/chamber.py, src/pattern/chamber.py) and keeps `accepted` /
`rejected` as persistent dataclass fields that `evaluate` appends to and
returns. -/

namespace Basic

/-- `WeightedInput` dataclass of src/weight/chamber.py. -/
structure WeightedInput where
  data : String
  tension : ℚ
  debt : ℚ
deriving DecidableEq, Repr

/-- `Pattern` dataclass of src/pattern/chamber.py. -/
structure Pattern where
  members : List WeightedInput
  average_tension : ℚ
  total_debt : ℚ
deriving DecidableEq, Repr

/-- `IntegrityChamber` dataclass of src/integrity/chamber.py.
`values` is a dict read only at key `"max_tension"` with default `1.0`,
modelled as that optional entry. -/
structure IntegrityChamber where
  values_max_tension : Option ℚ
  accepted : List Pattern
  rejected : List Pattern
deriving DecidableEq

/-- `IntegrityChamber._violates_values`:
`pattern.average_tension > self.values.get("max_tension", 1.0)`. -/
def IntegrityChamber.violates_values (c : IntegrityChamber) (p : Pattern) : Prop :=
  p.average_tension > c.values_max_tension.getD 1

instance (c : IntegrityChamber) (p : Pattern) : Decidable (c.violates_values p) := by
  unfold IntegrityChamber.violates_values; infer_instance

/-- `IntegrityChamber.evaluate`: appends each pattern to the chamber's
persistent `accepted`/`rejected` fields and returns those same lists.
Returns the mutated chamber together with the returned pair. -/
def IntegrityChamber.evaluate (c : IntegrityChamber) (patterns : List Pattern) :
    IntegrityChamber × (List Pattern × List Pattern) :=
  let c' := patterns.foldl
    (fun c p =>
      if c.violates_values p then { c with rejected := c.rejected ++ [p] }
      else { c with accepted := c.accepted ++ [p] })
    c
  (c', (c'.accepted, c'.rejected))

end Basic

/-! ## Graph memory (src/memory/lattice.py)

`ContradictionLattice` keeps `self.nodes : Dict[int, LatticeNode]`, modelled
as an insertion-ordered association list (CPython dicts preserve insertion
order; deleting a key keeps the order of the rest, and assigning to an
existing key keeps its position). -/

/-- `LatticeNode` dataclass: a pattern, its tension and the list of
connected node ids (`connections` is a Python list, not a set). -/
structure LatticeNode where
  pattern : Pattern
  tension : ℚ
  connections : List Nat
deriving DecidableEq, Repr

/-- `ContradictionLattice` state. -/
structure ContradictionLattice where
  nodes : List (Nat × LatticeNode)
  next_id : Nat
  epistemic_debt : ℚ
deriving DecidableEq

/-- `ContradictionLattice()`. -/
def ContradictionLattice.empty : ContradictionLattice := ⟨[], 0, 0⟩

/-- `self.nodes.get(i)` / `self.nodes[i]` lookup. -/
def findNode (nodes : List (Nat × LatticeNode)) (i : Nat) : Option LatticeNode :=
  nodes.lookup i

/-- In-place mutation of the node stored at key `i` (used only at keys that
are present; a Python dict assignment to an existing key keeps its slot). -/
def setNode (nodes : List (Nat × LatticeNode)) (i : Nat)
    (f : LatticeNode → LatticeNode) : List (Nat × LatticeNode) :=
  nodes.map fun p => if p.1 = i then (p.1, f p.2) else p

/-- `ContradictionLattice.insert(pattern, tension)`: allocate the next id,
append the node, bump `next_id`, add the tension to `epistemic_debt` and
return the new id. -/
def ContradictionLattice.insert (st : ContradictionLattice) (pattern : Pattern)
    (tension : ℚ) : ContradictionLattice × Nat :=
  (⟨st.nodes ++ [(st.next_id, ⟨pattern, tension, []⟩)],
    st.next_id + 1, st.epistemic_debt + tension⟩, st.next_id)

/-- `ContradictionLattice.connect(a, b)`: when both ids are present and `b`
is not already among `a`'s connections, append `b` to `a`'s list and then
`a` to `b`'s list (for `a = b` the source appends `a` to its own list
twice). -/
def ContradictionLattice.connect (st : ContradictionLattice) (a b : Nat) :
    ContradictionLattice :=
  match findNode st.nodes a, findNode st.nodes b with
  | some na, some _ =>
    if b ∈ na.connections then st
    else
      let nodes1 := setNode st.nodes a (fun n => { n with connections := n.connections ++ [b] })
      let nodes2 := setNode nodes1 b (fun n => { n with connections := n.connections ++ [a] })
      { st with nodes := nodes2 }
  | _, _ => st

/-- `ContradictionLattice.update_tension(node_id, new_tension)`: adjust the
debt by the delta and overwrite the tension; silently does nothing when the
id is absent. -/
def ContradictionLattice.update_tension (st : ContradictionLattice)
    (node_id : Nat) (new_tension : ℚ) : ContradictionLattice :=
  match findNode st.nodes node_id with
  | some node =>
    { st with
      epistemic_debt := st.epistemic_debt + (new_tension - node.tension),
      nodes := setNode st.nodes node_id fun n => { n with tension := new_tension } }
  | none => st

/-- Tension of a neighbour id.  The source indexes `self.nodes[neighbor_id]`
directly (a `KeyError` when absent); absent neighbour ids do not arise
through the public operations, so the default is never observed there. -/
def neighborTension (nodes : List (Nat × LatticeNode)) (nid : Nat) : ℚ :=
  ((findNode nodes nid).map fun n => n.tension).getD 0

/-- One node's entry of the `new_tensions` snapshot of `resonance_loop`:
unchanged without connections, otherwise
`(tension + Σ neighbour tensions) / (len(connections) + 1)`. -/
def stepTension (nodes : List (Nat × LatticeNode)) (n : LatticeNode) : ℚ :=
  if n.connections.isEmpty then n.tension
  else (n.connections.foldl (fun t nid => t + neighborTension nodes nid) n.tension) /
    (n.connections.length + 1)

/-- One iteration of `resonance_loop`: compute the `new_tensions` snapshot
from pre-iteration values, write every node's new tension, and rebuild
`epistemic_debt` from zero as the sum of the new tensions. -/
def resonanceOnce (st : ContradictionLattice) : ContradictionLattice :=
  { st with
    nodes := st.nodes.map fun p => (p.1, { p.2 with tension := stepTension st.nodes p.2 }),
    epistemic_debt :=
      (st.nodes.map fun p => (p.1, stepTension st.nodes p.2)).foldl (fun d q => d + q.2) 0 }

/-- `ContradictionLattice.resonance_loop(iterations)` (default `1`); the
source has no damping parameter. -/
def ContradictionLattice.resonance_loop (st : ContradictionLattice) :
    Nat → ContradictionLattice
  | 0 => st
  | k + 1 => (resonanceOnce st).resonance_loop k

/-- `list.remove(v)`: delete the first occurrence. -/
def removeFirst : List Nat → Nat → List Nat
  | [], _ => []
  | x :: xs, v => if x = v then xs else x :: removeFirst xs v

/-- The reference-cleanup loop of `bleed` for one removed id `nid`:
`for neighbor in self.nodes[nid].connections: if nid in
self.nodes[neighbor].connections: self.nodes[neighbor].connections.remove(nid)`.
Python iterates the live list by index, so the loop is modelled as an index
loop rereading `nid`'s current connection list each step (the list only
changes when `neighbor = nid`, i.e. on self-loops).  `fuel` starts at the
list's length at loop entry, which bounds the iteration count since the
list never grows.  A `neighbor` id that is itself absent would be a
`KeyError` in the source; the membership test over the empty default skips
it instead (unreachable through the public operations). -/
def bleedCleanup (nid : Nat) (nodes : List (Nat × LatticeNode)) (i : Nat) :
    Nat → List (Nat × LatticeNode)
  | 0 => nodes
  | fuel + 1 =>
    let conns := ((findNode nodes nid).map fun n => n.connections).getD []
    if h : i < conns.length then
      let neighbor := conns[i]
      let nodes' :=
        if nid ∈ (((findNode nodes neighbor).map fun n => n.connections).getD []) then
          setNode nodes neighbor fun n => { n with connections := removeFirst n.connections nid }
        else nodes
      bleedCleanup nid nodes' (i + 1) fuel
    else nodes

/-- `del self.nodes[nid]`. -/
def eraseNode (nodes : List (Nat × LatticeNode)) (nid : Nat) :
    List (Nat × LatticeNode) :=
  nodes.filter fun p => p.1 ≠ nid

/-- One iteration of the removal loop of `bleed`: subtract the node's
tension from the debt, clean the back references, delete the node.  The
`none` branch is unreachable: `to_remove` ids are present when processed. -/
def bleedOne (st : ContradictionLattice) (nid : Nat) : ContradictionLattice :=
  match findNode st.nodes nid with
  | none => st
  | some node =>
    { st with
      epistemic_debt := st.epistemic_debt - node.tension,
      nodes := eraseNode (bleedCleanup nid st.nodes 0 node.connections.length) nid }

/-- `ContradictionLattice.bleed(threshold)`: compute `to_remove` up front,
then remove each listed node. -/
def ContradictionLattice.bleed (st : ContradictionLattice) (threshold : ℚ) :
    ContradictionLattice :=
  ((st.nodes.filter fun p => p.2.tension < threshold).map fun p => p.1).foldl bleedOne st

/-! ### Python calling convention of the lattice methods

`def bleed(self, threshold: float)` takes exactly one required argument and
has no `fraction` parameter; `def insert(self, pattern, tension)` requires
the tension; `def resonance_loop(self, iterations: int = 1)` has no damping
parameter.  CPython raises `TypeError` for a missing required argument or an
unexpected keyword before the body runs; these wrappers model that call
protocol. -/

/-- A call `lattice.bleed(threshold?, fraction?)` as Python resolves it
against `def bleed(self, threshold)`. -/
def bleedCall (st : ContradictionLattice) (threshold fraction : Option ℚ) :
    Except String ContradictionLattice :=
  match threshold, fraction with
  | some t, none => .ok (st.bleed t)
  | _, some _ => .error "TypeError: bleed got an unexpected keyword argument fraction"
  | none, none => .error "TypeError: bleed missing 1 required positional argument: threshold"

/-- A call `lattice.insert(pattern, tension?)` as Python resolves it against
`def insert(self, pattern, tension)`. -/
def insertCall (st : ContradictionLattice) (pattern : Pattern) (tension : Option ℚ) :
    Except String (ContradictionLattice × Nat) :=
  match tension with
  | some t => .ok (st.insert pattern t)
  | none => .error "TypeError: insert missing 1 required positional argument: tension"

/-- A call `lattice.resonance_loop(iterations?, damping?)` as Python
resolves it against `def resonance_loop(self, iterations=1)`. -/
def resonanceCall (st : ContradictionLattice) (iterations : Option Nat)
    (damping : Option ℚ) : Except String ContradictionLattice :=
  match damping with
  | some _ => .error "TypeError: resonance_loop got an unexpected keyword argument damping"
  | none => .ok (st.resonance_loop (iterations.getD 1))

/-! ### Operation sequences on the lattice -/

/-- One public mutating call on a `ContradictionLattice`. -/
inductive LatticeOp where
  | insert (pattern : Pattern) (tension : ℚ)
  | connect (a b : Nat)
  | update_tension (node_id : Nat) (new_tension : ℚ)
  | resonance_loop (iterations : Nat)
  | bleed (threshold : ℚ)

/-- Apply one call. -/
def applyOp (st : ContradictionLattice) : LatticeOp → ContradictionLattice
  | .insert pattern tension => (st.insert pattern tension).1
  | .connect a b => st.connect a b
  | .update_tension node_id new_tension => st.update_tension node_id new_tension
  | .resonance_loop iterations => st.resonance_loop iterations
  | .bleed threshold => st.bleed threshold

/-- Run a call sequence from the empty lattice. -/
def runOps (ops : List LatticeOp) : ContradictionLattice :=
  ops.foldl applyOp ContradictionLattice.empty

/-- The exact sum of the tensions of all live nodes. -/
def debtSum (st : ContradictionLattice) : ℚ :=
  (st.nodes.map fun p => p.2.tension).sum

/-! ## Merkle weight digest (src/epasa/fingerprint_v2.py)

`compute_weight_merkle_root` hashes each weight (formatted to twelve decimal
places) into a leaf and reduces the level pairwise until one root remains.
The SHA-256 primitive and the `%.12f` weight formatting are opaque services
here, passed as the function arguments `sha256` and `fmtWeight`. -/

section Merkle

variable (sha256 : String → String)

/-- The inner `for i in range(0, len(leaves), 2)` pass: combine adjacent
pairs with the hash.  The level always has even length here (it was padded
just before), so the leftover-singleton case cannot occur. -/
def combinePairs : List String → List String
  | a :: b :: rest => sha256 (a ++ b) :: combinePairs rest
  | _ => []

/-- `if len(leaves) % 2 == 1: leaves.append(leaves[-1])`: duplicate the last
leaf when the level has an odd count.  An odd count is nonzero, so the
`getLastD` default is never read. -/
def padEven (leaves : List String) : List String :=
  if leaves.length % 2 = 1 then leaves ++ [leaves.getLastD ""] else leaves

/-- `while len(leaves) > 1`: pad, combine, repeat.  The loop is embedded
with explicit fuel; each pass at least halves the level, so any fuel of at
least the initial leaf count runs the loop to completion (proved below in
`merkleLoop_run_length`). -/
def merkleLoop : Nat → List String → List String
  | 0, leaves => leaves
  | fuel + 1, leaves =>
    if 1 < leaves.length then merkleLoop fuel (combinePairs sha256 (padEven leaves))
    else leaves

variable (fmtWeight : ℚ → String)

/-- `compute_weight_merkle_root(weights)`.  `if not weights` covers both the
absent (`None`) and the empty list, hashing the empty-sequence marker
`"[]"`; otherwise the padded pairwise reduction runs until a single root
remains and returns it. -/
def compute_weight_merkle_root (weights : Option (List ℚ)) : String :=
  match weights with
  | none => sha256 "[]"
  | some [] => sha256 "[]"
  | some ws =>
    let leaves := ws.map fun w => sha256 (fmtWeight w)
    (merkleLoop sha256 leaves.length leaves).headD ""

end Merkle

/-! ## Fingerprint constructor mismatch
(src/epasa/watcher.py, src/epasa/fingerprint_v2.py) -/

/-- The `Fingerprint` dataclass of watcher.py. -/
structure Fingerprint where
  architectural_hash : String
  weight_merkle_root : String
  ethical_vector : List ℚ
  behavioral_rhythm : List ℚ
  entropy_beacon : ℚ
deriving DecidableEq, Inhabited

/-- The field names of the `Fingerprint` dataclass, in declaration order;
the generated `__init__` accepts exactly these keywords. -/
def fingerprintFields : List String :=
  ["architectural_hash", "weight_merkle_root", "ethical_vector",
   "behavioral_rhythm", "entropy_beacon"]

/-- The keyword arguments that `compute_fingerprint` (fingerprint_v2.py,
lines 110–115) passes to the `Fingerprint` constructor. -/
def computeFingerprintKwargs : List String :=
  ["architectural_hash", "weight_merkle_root", "ethical_vector",
   "behavioural_rhythm_hash"]

/-- `compute_fingerprint(weights)` of fingerprint_v2.py.  The body first
computes `compute_architectural_hash()` (source introspection),
`compute_weight_merkle_root(weights)`, `compute_ethical_vector_v2()` and the
time-dependent `compute_behavioral_rhythm_hash_v2(weights or [])`, and then
evaluates `Fingerprint(architectural_hash=..., weight_merkle_root=...,
ethical_vector=..., behavioural_rhythm_hash=...)`.  A dataclass constructor
rejects any keyword that is not a declared field, and
`behavioural_rhythm_hash` is not one (watcher.py spells the field
`behavioral_rhythm`, a list of floats), so the call raises `TypeError` and
the intermediate values are discarded; the `.ok` branch is unreachable. -/
def compute_fingerprint (weights : Option (List ℚ)) : Except String Fingerprint :=
  match computeFingerprintKwargs.find? (fun k => !(fingerprintFields.contains k)) with
  | some k => .error ("TypeError: Fingerprint got an unexpected keyword argument " ++ k)
  | none =>
    -- never reached: behavioural_rhythm_hash fails the keyword check above
    let _ := weights
    .ok default

/-! ## Advanced pipeline construction (src/pipeline_advanced.py) -/

/-- The state a successfully constructed `TriChamberPipelineAdvanced` would
hold: its chambers, the baseline fingerprint and the lattice memory. -/
structure TriChamberPipelineAdvanced where
  weight : WeightChamber
  integrity : IntegrityChamber
  baseline : Fingerprint
  lattice : ContradictionLattice

/-- `TriChamberPipelineAdvanced.__init__(core_values)` with the default
fingerprint provider: builds the chambers, then evaluates
`self.fingerprint_provider([])` — that is, `compute_fingerprint([])` — for
the baseline; an exception escapes the constructor. -/
def TriChamberPipelineAdvanced.init (max_tension max_debt : Option ℚ) :
    Except String TriChamberPipelineAdvanced := do
  let baseline ← compute_fingerprint (some [])
  pure ⟨WeightChamber.default, IntegrityChamber.init max_tension max_debt,
    baseline, ContradictionLattice.empty⟩

/-! ## Concrete lattice states for the scenarios -/

/-- A placeholder pattern payload for the concrete lattice scenarios. -/
def dummyPattern : Pattern := ⟨[], 0, 0⟩

/-- Spec scenario 3: three nodes with tensions 0.9, 0.1, 0.1 and node 0
connected to nodes 1 and 2. -/
def lat3 : ContradictionLattice :=
  (((((ContradictionLattice.empty.insert dummyPattern (9/10)).1.insert
    dummyPattern (1/10)).1.insert dummyPattern (1/10)).1.connect 0 1).connect 0 2)

/-- Spec scenario 4: four nodes with tensions 0.1, 0.2, 0.3, 0.4, here with
edges 0–3 and 2–3 so that bleeding also exercises the back-reference
cleanup. -/
def lat4 : ContradictionLattice :=
  (((((((ContradictionLattice.empty.insert dummyPattern (1/10)).1.insert
    dummyPattern (2/10)).1.insert dummyPattern (3/10)).1.insert
    dummyPattern (4/10)).1.connect 0 3).connect 2 3))

/-- The node table of `lat3`, written out (equal to `lat3.nodes` by
computation). -/
def lat3Nodes : List (Nat × LatticeNode) :=
  [(0, ⟨dummyPattern, 9/10, [1, 2]⟩), (1, ⟨dummyPattern, 1/10, [0]⟩),
   (2, ⟨dummyPattern, 1/10, [0]⟩)]

/-- The node table of `lat4`, written out (equal to `lat4.nodes` by
computation). -/
def lat4Nodes : List (Nat × LatticeNode) :=
  [(0, ⟨dummyPattern, 1/10, [3]⟩), (1, ⟨dummyPattern, 2/10, []⟩),
   (2, ⟨dummyPattern, 3/10, [3]⟩), (3, ⟨dummyPattern, 4/10, [0, 2]⟩)]

/-- One pass of the bleed back-reference cleanup, as a function of the
visited neighbour id (the body of the loop in `bleedCleanup`). -/
def cleanupStep (nid : Nat) (nodes : List (Nat × LatticeNode)) (y : Nat) :
    List (Nat × LatticeNode) :=
  if nid ∈ (((findNode nodes y).map fun n => n.connections).getD []) then
    setNode nodes y fun n => { n with connections := removeFirst n.connections nid }
  else nodes

/-- The relation between a node before and after bleed cleanup of `nid`:
pattern and tension untouched, and the connection list only loses
occurrences of `nid`. -/
def connShrunk (nid : Nat) (m0 m1 : LatticeNode) : Prop :=
  m1.pattern = m0.pattern ∧ m1.tension = m0.tension ∧
  m1.connections.Sublist m0.connections ∧
  ∀ x, x ≠ nid → (x ∈ m1.connections ↔ x ∈ m0.connections)

/-! ## Views of the node table used by the statements -/

/-- The node ids, in storage order. -/
def keysOf (l : List (Nat × LatticeNode)) : List Nat := l.map Prod.fst

/-- The id/tension view of the node table (what `epistemic_debt` and the
bleed statements are about; connection bookkeeping is invisible here). -/
def tensionsOf (l : List (Nat × LatticeNode)) : List (Nat × ℚ) :=
  l.map fun p => (p.1, p.2.tension)

/-- Basic well-formedness of a lattice state: distinct node ids, every id
below `next_id` (so fresh ids never collide), and the epistemic-debt
invariant.  Every state reachable from the empty lattice satisfies this. -/
def latticeWF (st : ContradictionLattice) : Prop :=
  (keysOf st.nodes).Nodup ∧ (∀ k ∈ keysOf st.nodes, k < st.next_id) ∧
  st.epistemic_debt = debtSum st

/-- A well-formed adjacency structure: distinct ids, duplicate-free
connection lists, no self-loops, only live targets, and symmetric edges.
Every state built through `insert`/`connect` with distinct endpoints
satisfies this; it is the regime the spec's adjacency-set reading
describes. -/
def ProperGraph (st : ContradictionLattice) : Prop :=
  (keysOf st.nodes).Nodup ∧
  ∀ p ∈ st.nodes, p.2.connections.Nodup ∧ p.1 ∉ p.2.connections ∧
    (∀ c ∈ p.2.connections, c ∈ keysOf st.nodes) ∧
    (∀ q ∈ st.nodes, p.1 ∈ q.2.connections → q.1 ∈ p.2.connections)

instance (st : ContradictionLattice) : Decidable (ProperGraph st) := by
  unfold ProperGraph; infer_instance

/-! # Shared lemmas -/

lemma clamp01_nonneg (x : ℚ) : 0 ≤ clamp01 x := le_max_left 0 _

lemma clamp01_le_one (x : ℚ) : clamp01 x ≤ 1 :=
  max_le (by norm_num) (min_le_left 1 x)

lemma length_filter_not {α : Type} (f : α → Bool) (l : List α) :
    (l.filter f).length + (l.filter (fun a => !f a)).length = l.length := by
  induction l with
  | nil => rfl
  | cons a l ih => by_cases h : f a <;> simp [List.filter_cons, h] <;> omega

lemma integrity_eval_aux (c : IntegrityChamber) (ps : List Pattern)
    (a r : List Pattern) :
    ps.foldl
      (fun acc p =>
        if p.average_tension ≤ c.max_tension ∧ p.total_debt ≤ c.max_debt then
          (acc.1 ++ [p], acc.2)
        else
          (acc.1, acc.2 ++ [p]))
      (a, r) =
    (a ++ ps.filter (fun p => decide (p.average_tension ≤ c.max_tension ∧ p.total_debt ≤ c.max_debt)),
     r ++ ps.filter (fun p => !decide (p.average_tension ≤ c.max_tension ∧ p.total_debt ≤ c.max_debt))) := by
  induction ps generalizing a r with
  | nil => simp
  | cons p ps ih =>
    rw [List.foldl_cons, List.filter_cons, List.filter_cons]
    by_cases h : p.average_tension ≤ c.max_tension ∧ p.total_debt ≤ c.max_debt
    · have h1 : decide (p.average_tension ≤ c.max_tension ∧ p.total_debt ≤ c.max_debt) = true := by
        simp [h]
      rw [if_pos h, ih, h1]
      simp
    · have h1 : decide (p.average_tension ≤ c.max_tension ∧ p.total_debt ≤ c.max_debt) = false := by
        simp [h]
      rw [if_neg h, ih, h1]
      simp

lemma basic_eval_chamber (c : Basic.IntegrityChamber) (ps : List Basic.Pattern) :
    (c.evaluate ps).1 =
      ⟨c.values_max_tension,
       c.accepted ++ ps.filter (fun p => !decide (c.violates_values p)),
       c.rejected ++ ps.filter (fun p => decide (c.violates_values p))⟩ := by
  suffices h : ∀ (ps : List Basic.Pattern) (c : Basic.IntegrityChamber),
      ps.foldl
        (fun c p =>
          if c.violates_values p then { c with rejected := c.rejected ++ [p] }
          else { c with accepted := c.accepted ++ [p] })
        c =
      ⟨c.values_max_tension,
       c.accepted ++ ps.filter (fun p => !decide (c.violates_values p)),
       c.rejected ++ ps.filter (fun p => decide (c.violates_values p))⟩ by
    exact h ps c
  intro ps
  induction ps with
  | nil => intro c; simp
  | cons p ps ih =>
    intro c
    rw [List.foldl_cons, List.filter_cons, List.filter_cons]
    by_cases h : c.violates_values p
    · have h1 : decide (c.violates_values p) = true := by simp [h]
      rw [if_pos h, ih, h1]
      have hv : ∀ q : Basic.Pattern,
          (Basic.IntegrityChamber.violates_values
            { c with rejected := c.rejected ++ [p] } q) = c.violates_values q := by
        intro q; rfl
      simp [hv]
    · have h1 : decide (c.violates_values p) = false := by simp [h]
      rw [if_neg h, ih, h1]
      have hv : ∀ q : Basic.Pattern,
          (Basic.IntegrityChamber.violates_values
            { c with accepted := c.accepted ++ [p] } q) = c.violates_values q := by
        intro q; rfl
      simp [hv]

lemma combinePairs_length (sha : String → String) :
    ∀ l : List String, (combinePairs sha l).length = l.length / 2
  | [] => by simp [combinePairs]
  | [a] => by simp [combinePairs]
  | a :: b :: rest => by
    have h := combinePairs_length sha rest
    simp [combinePairs, h]
    omega

lemma padEven_length (l : List String) :
    (padEven l).length = if l.length % 2 = 1 then l.length + 1 else l.length := by
  unfold padEven
  split <;> simp_all

lemma merkleLoop_run_length (sha : String → String) :
    ∀ (fuel : Nat) (l : List String), 0 < l.length → l.length ≤ fuel + 1 →
      (merkleLoop sha fuel l).length = 1
  | 0, l, h0, h1 => by
    unfold merkleLoop
    omega
  | fuel + 1, l, h0, h1 => by
    by_cases h : 1 < l.length
    · unfold merkleLoop
      rw [if_pos h]
      have hcl := combinePairs_length sha (padEven l)
      have hpl := padEven_length l
      apply merkleLoop_run_length sha fuel
      · by_cases hp : l.length % 2 = 1 <;> simp [hp] at hpl <;> omega
      · by_cases hp : l.length % 2 = 1 <;> simp [hp] at hpl <;> omega
    · unfold merkleLoop
      rw [if_neg h]
      omega

/-! # Claim theorems (filter, weighting, digest, accumulation, constructor) -/

/-- C6: the advanced integrity chamber's `evaluate` returns an exhaustive
and disjoint partition of its input: a pattern lands in the accepted
sequence iff `average_tension ≤ max_tension` and `total_debt ≤ max_debt`,
and in the rejected sequence otherwise; the outputs are sublists of the
unmodified input (the call mutates no pattern). -/
theorem C6_filter_partition (c : IntegrityChamber) (ps : List Pattern) :
    (c.evaluate ps).1 =
      ps.filter (fun p => decide (p.average_tension ≤ c.max_tension ∧ p.total_debt ≤ c.max_debt)) ∧
    (c.evaluate ps).2 =
      ps.filter (fun p => !decide (p.average_tension ≤ c.max_tension ∧ p.total_debt ≤ c.max_debt)) ∧
    (∀ p, p ∈ (c.evaluate ps).1 ↔
      p ∈ ps ∧ (p.average_tension ≤ c.max_tension ∧ p.total_debt ≤ c.max_debt)) ∧
    (∀ p, p ∈ (c.evaluate ps).2 ↔
      p ∈ ps ∧ ¬(p.average_tension ≤ c.max_tension ∧ p.total_debt ≤ c.max_debt)) ∧
    (c.evaluate ps).1.length + (c.evaluate ps).2.length = ps.length ∧
    (∀ p, ¬(p ∈ (c.evaluate ps).1 ∧ p ∈ (c.evaluate ps).2)) := by
  have he : c.evaluate ps =
      (ps.filter (fun p => decide (p.average_tension ≤ c.max_tension ∧ p.total_debt ≤ c.max_debt)),
       ps.filter (fun p => !decide (p.average_tension ≤ c.max_tension ∧ p.total_debt ≤ c.max_debt))) := by
    unfold IntegrityChamber.evaluate
    simpa using integrity_eval_aux c ps [] []
  refine ⟨by rw [he], by rw [he], ?_, ?_, ?_, ?_⟩
  · intro p
    rw [he, List.mem_filter]
    simp only [decide_eq_true_eq]
  · intro p
    rw [he, List.mem_filter]
    simp only [← decide_not, decide_eq_true_eq]
  · rw [he]
    exact length_filter_not _ ps
  · intro p hp
    rw [he] at hp
    rcases hp with ⟨h1, h2⟩
    rw [List.mem_filter] at h1 h2
    rcases h1 with ⟨-, h1⟩
    rcases h2 with ⟨-, h2⟩
    rw [h1] at h2
    simp at h2

/-- C6 witness: a concrete two-pattern input splits as the theorem says at
the default thresholds. -/
theorem C6_filter_partition_witness :
    ((IntegrityChamber.init none none).evaluate
        [⟨[], 1/2, 1⟩, ⟨[], 9/10, 1⟩]).1 = [⟨[], 1/2, 1⟩] ∧
    ((IntegrityChamber.init none none).evaluate
        [⟨[], 1/2, 1⟩, ⟨[], 9/10, 1⟩]).2 = [⟨[], 9/10, 1⟩] := by
  have h := C6_filter_partition (IntegrityChamber.init none none)
    [⟨[], 1/2, 1⟩, ⟨[], 9/10, 1⟩]
  constructor
  · rw [h.1]
    norm_num [IntegrityChamber.init, List.filter]
  · rw [h.2.1]
    norm_num [IntegrityChamber.init, List.filter]

/-- C10: the basic (single-threshold) integrity chamber accumulates across
calls: `evaluate` appends each classified pattern to the chamber's
persistent `accepted`/`rejected` fields and returns those lists, so the
sequences returned by a second call are the first call's sequences extended
by the second batch's classifications (and the first call's sequences
already extend the chamber's initial fields). -/
theorem C10_accumulating_results (c : Basic.IntegrityChamber)
    (ps1 ps2 : List Basic.Pattern) :
    ((c.evaluate ps1).1.evaluate ps2).2.1 =
      (c.evaluate ps1).2.1 ++ ps2.filter (fun p => !decide (c.violates_values p)) ∧
    ((c.evaluate ps1).1.evaluate ps2).2.2 =
      (c.evaluate ps1).2.2 ++ ps2.filter (fun p => decide (c.violates_values p)) ∧
    (c.evaluate ps1).2.1 =
      c.accepted ++ ps1.filter (fun p => !decide (c.violates_values p)) ∧
    (c.evaluate ps1).2.2 =
      c.rejected ++ ps1.filter (fun p => decide (c.violates_values p)) := by
  have h1 := basic_eval_chamber c ps1
  have h2 := basic_eval_chamber (c.evaluate ps1).1 ps2
  have hval : (c.evaluate ps1).1.values_max_tension = c.values_max_tension := by
    rw [h1]
  have hpred : (fun p => decide ((c.evaluate ps1).1.violates_values p)) =
      (fun p : Basic.Pattern => decide (c.violates_values p)) := by
    funext p
    simp [Basic.IntegrityChamber.violates_values, hval]
  have hpredn : (fun p => !decide ((c.evaluate ps1).1.violates_values p)) =
      (fun p : Basic.Pattern => !decide (c.violates_values p)) := by
    funext p
    simp [Basic.IntegrityChamber.violates_values, hval]
  refine ⟨?_, ?_, ?_, ?_⟩
  · show ((c.evaluate ps1).1.evaluate ps2).1.accepted =
      (c.evaluate ps1).1.accepted ++ ps2.filter (fun p => !decide (c.violates_values p))
    rw [h2, hpredn]
  · show ((c.evaluate ps1).1.evaluate ps2).1.rejected =
      (c.evaluate ps1).1.rejected ++ ps2.filter (fun p => decide (c.violates_values p))
    rw [h2, hpred]
  · show (c.evaluate ps1).1.accepted = _
    rw [h1]
  · show (c.evaluate ps1).1.rejected = _
    rw [h1]

/-- C7: the advanced weight chamber's `assign` yields a tension in [0,1]
with `debt = tension`; a supplied external score is clamped to [0,1] and
used as the base signal, no history gives base 0.5, non-empty history gives
the mean Jaccard distance of the case-normalized token sets (0 when both
sets are empty); the final tension averages the base with the Beta draw and
clamps; the item's token set is appended to the history. -/
theorem C7_weight_assign (wc : WeightChamber) (content : String)
    (metric : Option ℚ) (betaSample : ℚ) :
    (0 ≤ (wc.assign content metric betaSample).1.weight ∧
      (wc.assign content metric betaSample).1.weight ≤ 1) ∧
    (wc.assign content metric betaSample).1.epistemic_debt =
      (wc.assign content metric betaSample).1.weight ∧
    (wc.assign content metric betaSample).2.history =
      wc.history ++ [tokenize content] ∧
    (∀ m, metric = some m →
      (wc.assign content metric betaSample).1.weight =
        clamp01 ((clamp01 m + betaSample) / 2)) ∧
    (metric = none → wc.history = [] →
      (wc.assign content metric betaSample).1.weight =
        clamp01 ((1/2 + betaSample) / 2)) ∧
    (metric = none → wc.history ≠ [] →
      (wc.assign content metric betaSample).1.weight =
        clamp01 ((((wc.history.map fun h =>
          jaccard_distance (tokenize content) h).sum / wc.history.length) + betaSample) / 2)) ∧
    jaccard_distance ∅ ∅ = 0 ∧
    (wc.assign content metric betaSample).1.content = content := by
  refine ⟨⟨?_, ?_⟩, ?_, ?_, ?_, ?_, ?_, ?_, ?_⟩
  · exact clamp01_nonneg _
  · exact clamp01_le_one _
  · rfl
  · rfl
  · intro m hm; subst hm; rfl
  · intro hm hh; subst hm
    simp [WeightChamber.assign, hh]
  · intro hm hh; subst hm
    simp [WeightChamber.assign, List.isEmpty_iff, hh]
  · simp [jaccard_distance]
  · rfl

/-- C8: the Merkle weight digest is a deterministic function of its input:
an empty or absent weight list always yields the digest of the
empty-sequence marker; a single weight's root is the hash of its single
leaf; a level with an odd count is padded by duplicating its last leaf, and
adjacent pairs are combined with the hash until a single root remains. -/
theorem C8_merkle_root (sha256 : String → String) (fmtWeight : ℚ → String) :
    compute_weight_merkle_root sha256 fmtWeight none = sha256 "[]" ∧
    compute_weight_merkle_root sha256 fmtWeight (some []) = sha256 "[]" ∧
    (∀ w : ℚ, compute_weight_merkle_root sha256 fmtWeight (some [w]) =
      sha256 (fmtWeight w)) ∧
    (∀ (leaves : List String) (fuel : Nat), 1 < leaves.length →
      merkleLoop sha256 (fuel + 1) leaves =
        merkleLoop sha256 fuel (combinePairs sha256 (padEven leaves))) ∧
    (∀ leaves : List String, leaves.length % 2 = 1 →
      padEven leaves = leaves ++ [leaves.getLastD ""]) ∧
    (∀ leaves : List String, leaves.length % 2 = 0 → padEven leaves = leaves) ∧
    (∀ (a b : String) (rest : List String),
      combinePairs sha256 (a :: b :: rest) =
        sha256 (a ++ b) :: combinePairs sha256 rest) ∧
    (∀ leaves : List String, leaves ≠ [] →
      (merkleLoop sha256 leaves.length leaves).length = 1) := by
  refine ⟨rfl, rfl, fun w => rfl, ?_, ?_, ?_, fun a b rest => rfl, ?_⟩
  · intro leaves fuel h
    rw [merkleLoop, if_pos h]
  · intro leaves h
    rw [padEven, if_pos h]
  · intro leaves h
    rw [padEven, if_neg (by omega)]
  · intro leaves h
    exact merkleLoop_run_length sha256 leaves.length leaves
      (List.length_pos.mpr h) (by omega)

/-- C8 witness: at a concrete hash function and a concrete odd-sized level,
the padding, the loop step and the single-root termination evaluate as the
theorem states. -/
theorem C8_merkle_root_witness :
    padEven ["a", "b", "c"] = ["a", "b", "c", "c"] ∧
    (merkleLoop (String.append "#") 3 ["a", "b", "c"]).length = 1 ∧
    merkleLoop (String.append "#") 3 ["a", "b", "c"] =
      merkleLoop (String.append "#") 2
        (combinePairs (String.append "#") (padEven ["a", "b", "c"])) := by
  have h := C8_merkle_root (String.append "#") (fun _ => "w")
  refine ⟨?_, ?_, ?_⟩
  · rw [h.2.2.2.2.1 ["a", "b", "c"] (by decide)]
    decide
  · exact h.2.2.2.2.2.2.2 ["a", "b", "c"] (by decide)
  · exact h.2.2.2.1 ["a", "b", "c"] 2 (by decide)

/-- C5: `compute_fingerprint` passes the keyword `behavioural_rhythm_hash`
to the `Fingerprint` constructor, which is not a field of the dataclass, so
every call (any weight list, including the empty one) raises `TypeError`;
consequently constructing `TriChamberPipelineAdvanced` with the default
fingerprint provider fails before any batch can be processed. -/
theorem C5_fingerprint_constructor_mismatch :
    (∀ weights : Option (List ℚ),
      compute_fingerprint weights =
        .error "TypeError: Fingerprint got an unexpected keyword argument behavioural_rhythm_hash") ∧
    (∀ max_tension max_debt : Option ℚ,
      TriChamberPipelineAdvanced.init max_tension max_debt =
        .error "TypeError: Fingerprint got an unexpected keyword argument behavioural_rhythm_hash") :=
  ⟨fun _ => rfl, fun _ _ => rfl⟩

/-- C2: the claimed batch processing never happens on the code as written:
construction with the default provider raises `TypeError` out of
`compute_fingerprint`, and the `process` body's calls
`self.lattice.insert(pattern)` and `self.lattice.bleed()` are themselves
`TypeError`s against the lattice's actual signatures (`insert` requires a
`tension` argument, `bleed` requires a `threshold` argument). -/
theorem C2_pipeline_never_processes :
    TriChamberPipelineAdvanced.init none none =
      .error "TypeError: Fingerprint got an unexpected keyword argument behavioural_rhythm_hash" ∧
    (∀ (st : ContradictionLattice) (pat : Pattern),
      insertCall st pat none =
        .error "TypeError: insert missing 1 required positional argument: tension") ∧
    (∀ st : ContradictionLattice,
      bleedCall st none none =
        .error "TypeError: bleed missing 1 required positional argument: threshold") :=
  ⟨rfl, fun _ _ => rfl, fun _ => rfl⟩

/-- C7 witness: with an out-of-range external score 2 the base clamps to 1
and a draw of 1/2 gives tension 3/4; with no score and no history the base
is 1/2 and the same draw gives tension 1/2. -/
theorem C7_weight_assign_witness :
    (WeightChamber.default.assign "a" (some 2) (1/2)).1.weight = 3/4 ∧
    (WeightChamber.default.assign "a" none (1/2)).1.weight = 1/2 := by
  constructor
  · rw [(C7_weight_assign WeightChamber.default "a" (some 2) (1/2)).2.2.2.1 2 rfl]
    norm_num [clamp01, min_def, max_def]
  · rw [(C7_weight_assign WeightChamber.default "a" none (1/2)).2.2.2.2.1 rfl rfl]
    norm_num [clamp01, min_def, max_def]

/-! # Lemmas about the node table -/

lemma keysOf_nil : keysOf [] = [] := rfl

lemma keysOf_cons (k : Nat) (v : LatticeNode) (l : List (Nat × LatticeNode)) :
    keysOf ((k, v) :: l) = k :: keysOf l := rfl

lemma tensionsOf_cons (k : Nat) (v : LatticeNode) (l : List (Nat × LatticeNode)) :
    tensionsOf ((k, v) :: l) = (k, v.tension) :: tensionsOf l := rfl

lemma setNode_cons (k : Nat) (v : LatticeNode) (l : List (Nat × LatticeNode))
    (i : Nat) (f : LatticeNode → LatticeNode) :
    setNode ((k, v) :: l) i f =
      (if k = i then (k, f v) else (k, v)) :: setNode l i f := rfl

lemma eraseNode_cons (k : Nat) (v : LatticeNode) (l : List (Nat × LatticeNode))
    (i : Nat) :
    eraseNode ((k, v) :: l) i =
      if k = i then eraseNode l i else (k, v) :: eraseNode l i := by
  simp only [eraseNode, List.filter_cons]
  by_cases h : k = i <;> simp [h]

lemma lookup_pair_cons {β : Type} (j k : Nat) (v : β) (l : List (Nat × β)) :
    List.lookup j ((k, v) :: l) = if j = k then some v else List.lookup j l := by
  by_cases h : j = k
  · subst h; simp [List.lookup]
  · have hb : (j == k) = false := beq_eq_false_iff_ne.mpr h
    simp [List.lookup, hb, h]

lemma keysOf_setNode (l : List (Nat × LatticeNode)) (i : Nat)
    (f : LatticeNode → LatticeNode) : keysOf (setNode l i f) = keysOf l := by
  induction l with
  | nil => rfl
  | cons p l ih =>
    obtain ⟨k, v⟩ := p
    rw [setNode_cons, keysOf_cons]
    by_cases h : k = i <;> simp [h, keysOf_cons, ih]

lemma tensionsOf_setNode (l : List (Nat × LatticeNode)) (i : Nat)
    (f : LatticeNode → LatticeNode) (hf : ∀ n, (f n).tension = n.tension) :
    tensionsOf (setNode l i f) = tensionsOf l := by
  induction l with
  | nil => rfl
  | cons p l ih =>
    obtain ⟨k, v⟩ := p
    rw [setNode_cons, tensionsOf_cons]
    by_cases h : k = i <;> simp [h, tensionsOf_cons, ih, hf]

lemma keysOf_eq_map_tensionsOf (l : List (Nat × LatticeNode)) :
    keysOf l = (tensionsOf l).map Prod.fst := by
  simp [keysOf, tensionsOf, List.map_map]

lemma map_tension_eq (l : List (Nat × LatticeNode)) :
    (l.map fun p => p.2.tension) = (tensionsOf l).map Prod.snd := by
  simp [tensionsOf, List.map_map]

lemma lookup_setNode_ne (l : List (Nat × LatticeNode)) (i j : Nat)
    (f : LatticeNode → LatticeNode) (h : j ≠ i) :
    (setNode l i f).lookup j = l.lookup j := by
  induction l with
  | nil => rfl
  | cons p l ih =>
    obtain ⟨k, v⟩ := p
    rw [setNode_cons]
    by_cases hk : k = i
    · subst hk
      rw [if_pos rfl, lookup_pair_cons, lookup_pair_cons, if_neg h, if_neg h]
      exact ih
    · rw [if_neg hk, lookup_pair_cons, lookup_pair_cons]
      by_cases hj : j = k
      · simp [hj]
      · simp [hj, ih]

lemma lookup_setNode_self (l : List (Nat × LatticeNode)) (i : Nat)
    (f : LatticeNode → LatticeNode) (n : LatticeNode) (h : l.lookup i = some n) :
    (setNode l i f).lookup i = some (f n) := by
  induction l with
  | nil => simp [List.lookup] at h
  | cons p l ih =>
    obtain ⟨k, v⟩ := p
    rw [lookup_pair_cons] at h
    rw [setNode_cons]
    by_cases hk : i = k
    · rw [if_pos hk] at h
      rw [if_pos hk.symm, lookup_pair_cons, if_pos hk]
      rw [Option.some_inj] at h
      rw [h]
    · rw [if_neg hk] at h
      have hk' : ¬(k = i) := fun hh => hk hh.symm
      rw [if_neg hk', lookup_pair_cons, if_neg hk]
      exact ih h

lemma setNode_id_of_not_mem (l : List (Nat × LatticeNode)) (i : Nat)
    (f : LatticeNode → LatticeNode) (h : i ∉ keysOf l) : setNode l i f = l := by
  induction l with
  | nil => rfl
  | cons p l ih =>
    obtain ⟨k, v⟩ := p
    rw [keysOf_cons, List.mem_cons, not_or] at h
    rw [setNode_cons, if_neg (fun hh => h.1 hh.symm), ih h.2]

lemma eraseNode_id_of_not_mem (l : List (Nat × LatticeNode)) (i : Nat)
    (h : i ∉ keysOf l) : eraseNode l i = l := by
  induction l with
  | nil => rfl
  | cons p l ih =>
    obtain ⟨k, v⟩ := p
    rw [keysOf_cons, List.mem_cons, not_or] at h
    rw [eraseNode_cons, if_neg (fun hh => h.1 hh.symm), ih h.2]

lemma lookup_eq_none_of_not_mem (l : List (Nat × LatticeNode)) (i : Nat)
    (h : i ∉ keysOf l) : l.lookup i = none := by
  induction l with
  | nil => rfl
  | cons p l ih =>
    obtain ⟨k, v⟩ := p
    rw [keysOf_cons, List.mem_cons, not_or] at h
    rw [lookup_pair_cons, if_neg h.1]
    exact ih h.2

lemma mem_keysOf_of_lookup (l : List (Nat × LatticeNode)) (i : Nat)
    (n : LatticeNode) (h : l.lookup i = some n) : i ∈ keysOf l := by
  by_contra hmem
  rw [lookup_eq_none_of_not_mem l i hmem] at h
  exact Option.noConfusion h

lemma lookup_of_mem_keysOf (l : List (Nat × LatticeNode)) (i : Nat)
    (h : i ∈ keysOf l) : ∃ n, l.lookup i = some n := by
  induction l with
  | nil => simp [keysOf] at h
  | cons p l ih =>
    obtain ⟨k, v⟩ := p
    rw [lookup_pair_cons]
    by_cases hik : i = k
    · exact ⟨v, by rw [if_pos hik]⟩
    · rw [keysOf_cons, List.mem_cons] at h
      rcases h with h | h
      · exact absurd h hik
      · rw [if_neg hik]
        exact ih h

lemma sum_tension_setNode (l : List (Nat × LatticeNode)) (i : Nat)
    (f : LatticeNode → LatticeNode) (n : LatticeNode)
    (hnd : (keysOf l).Nodup) (h : l.lookup i = some n) :
    ((setNode l i f).map fun p => p.2.tension).sum =
      (l.map fun p => p.2.tension).sum - n.tension + (f n).tension := by
  induction l with
  | nil => simp [List.lookup] at h
  | cons p l ih =>
    obtain ⟨k, v⟩ := p
    rw [keysOf_cons, List.nodup_cons] at hnd
    rw [lookup_pair_cons] at h
    rw [setNode_cons]
    by_cases hk : i = k
    · rw [if_pos hk] at h
      rw [Option.some_inj] at h
      subst h
      rw [if_pos hk.symm]
      rw [setNode_id_of_not_mem l i f (by rw [← hk] at hnd; exact hnd.1)]
      simp only [List.map_cons, List.sum_cons]
      ring
    · rw [if_neg hk] at h
      rw [if_neg (fun hh => hk hh.symm)]
      simp only [List.map_cons, List.sum_cons]
      rw [ih hnd.2 h]
      ring

lemma sum_tension_erase (l : List (Nat × LatticeNode)) (i : Nat)
    (n : LatticeNode) (hnd : (keysOf l).Nodup) (h : l.lookup i = some n) :
    ((eraseNode l i).map fun p => p.2.tension).sum =
      (l.map fun p => p.2.tension).sum - n.tension := by
  induction l with
  | nil => simp [List.lookup] at h
  | cons p l ih =>
    obtain ⟨k, v⟩ := p
    rw [keysOf_cons, List.nodup_cons] at hnd
    rw [lookup_pair_cons] at h
    rw [eraseNode_cons]
    by_cases hk : i = k
    · rw [if_pos hk] at h
      rw [Option.some_inj] at h
      subst h
      rw [if_pos hk.symm]
      rw [eraseNode_id_of_not_mem l i (by rw [← hk] at hnd; exact hnd.1)]
      simp only [List.map_cons, List.sum_cons]
      ring
    · rw [if_neg hk] at h
      rw [if_neg (fun hh => hk hh.symm)]
      simp only [List.map_cons, List.sum_cons]
      rw [ih hnd.2 h]
      ring

lemma eraseNode_sublist (l : List (Nat × LatticeNode)) (i : Nat) :
    (eraseNode l i).Sublist l := List.filter_sublist l

lemma foldl_add_snd (l : List (Nat × ℚ)) : ∀ a : ℚ,
    l.foldl (fun d q => d + q.2) a = a + (l.map Prod.snd).sum := by
  induction l with
  | nil => intro a; simp
  | cons q l ih => intro a; simp [ih, add_assoc]

lemma foldl_add_neighbor (nodes : List (Nat × LatticeNode)) (conns : List Nat) :
    ∀ t : ℚ, conns.foldl (fun t nid => t + neighborTension nodes nid) t =
      t + (conns.map (neighborTension nodes)).sum := by
  induction conns with
  | nil => intro t; simp
  | cons c conns ih => intro t; simp [ih, add_assoc]

lemma lookup_tensionsOf (l : List (Nat × LatticeNode)) (j : Nat) :
    (tensionsOf l).lookup j = (l.lookup j).map fun n => n.tension := by
  induction l with
  | nil => rfl
  | cons p l ih =>
    obtain ⟨k, v⟩ := p
    rw [tensionsOf_cons, lookup_pair_cons, lookup_pair_cons]
    by_cases hj : j = k
    · simp [hj]
    · simp [hj, ih]

/-! # Preservation of `latticeWF` by the public operations -/

lemma latticeWF_empty : latticeWF ContradictionLattice.empty := by
  refine ⟨List.nodup_nil, ?_, rfl⟩
  intro k hk
  simp [ContradictionLattice.empty, keysOf] at hk

lemma latticeWF_conn_only (st : ContradictionLattice)
    (nodes2 : List (Nat × LatticeNode)) (h : latticeWF st)
    (hkeys : keysOf nodes2 = keysOf st.nodes)
    (htens : tensionsOf nodes2 = tensionsOf st.nodes) :
    latticeWF { st with nodes := nodes2 } := by
  obtain ⟨hnd, hbound, hdebt⟩ := h
  refine ⟨?_, ?_, ?_⟩
  · show (keysOf nodes2).Nodup
    rw [hkeys]; exact hnd
  · intro k hk
    replace hk : k ∈ keysOf nodes2 := hk
    rw [hkeys] at hk
    exact hbound k hk
  · show st.epistemic_debt = debtSum { st with nodes := nodes2 }
    rw [hdebt]
    unfold debtSum
    rw [map_tension_eq, map_tension_eq]
    show ((tensionsOf st.nodes).map Prod.snd).sum = ((tensionsOf nodes2).map Prod.snd).sum
    rw [htens]

lemma latticeWF_insert (st : ContradictionLattice) (pat : Pattern) (t : ℚ)
    (h : latticeWF st) : latticeWF (st.insert pat t).1 := by
  obtain ⟨hnd, hbound, hdebt⟩ := h
  have hfresh : st.next_id ∉ keysOf st.nodes := fun hmem =>
    lt_irrefl _ (hbound _ hmem)
  have hkeys : keysOf (st.insert pat t).1.nodes = keysOf st.nodes ++ [st.next_id] := by
    simp [ContradictionLattice.insert, keysOf]
  refine ⟨?_, ?_, ?_⟩
  · rw [hkeys]
    simp [List.nodup_append, hnd, hfresh]
  · intro k hk
    rw [hkeys, List.mem_append] at hk
    show k < st.next_id + 1
    rcases hk with hk | hk
    · exact Nat.lt_succ_of_lt (hbound _ hk)
    · simp at hk; omega
  · show st.epistemic_debt + t = debtSum (st.insert pat t).1
    rw [hdebt]
    simp [debtSum, ContradictionLattice.insert]

lemma latticeWF_connect (st : ContradictionLattice) (a b : Nat)
    (h : latticeWF st) : latticeWF (st.connect a b) := by
  unfold ContradictionLattice.connect
  split
  · split
    · exact h
    · dsimp only
      exact latticeWF_conn_only st _ h
        (by rw [keysOf_setNode, keysOf_setNode])
        (by rw [tensionsOf_setNode
              (setNode st.nodes a fun n => { n with connections := n.connections ++ [b] })
              b (fun n => { n with connections := n.connections ++ [a] }) (fun n => rfl),
            tensionsOf_setNode st.nodes a
              (fun n => { n with connections := n.connections ++ [b] }) (fun n => rfl)])
  · exact h

lemma latticeWF_update (st : ContradictionLattice) (i : Nat) (t : ℚ)
    (h : latticeWF st) : latticeWF (st.update_tension i t) := by
  obtain ⟨hnd, hbound, hdebt⟩ := h
  cases hfind : findNode st.nodes i with
  | none =>
    simp only [ContradictionLattice.update_tension, hfind]
    exact ⟨hnd, hbound, hdebt⟩
  | some n =>
    simp only [ContradictionLattice.update_tension, hfind]
    refine ⟨?_, ?_, ?_⟩
    · show (keysOf (setNode st.nodes i fun m => { m with tension := t })).Nodup
      rw [keysOf_setNode]; exact hnd
    · intro k hk
      replace hk : k ∈ keysOf (setNode st.nodes i fun m => { m with tension := t }) := hk
      rw [keysOf_setNode] at hk
      exact hbound k hk
    · show st.epistemic_debt + (t - n.tension) = debtSum _
      unfold debtSum
      rw [sum_tension_setNode st.nodes i _ n hnd hfind]
      rw [hdebt]
      unfold debtSum
      ring

lemma resonanceOnce_keys (st : ContradictionLattice) :
    keysOf (resonanceOnce st).nodes = keysOf st.nodes := by
  simp [resonanceOnce, keysOf, List.map_map, Function.comp]

lemma resonanceOnce_debt (st : ContradictionLattice) :
    (resonanceOnce st).epistemic_debt = debtSum (resonanceOnce st) := by
  show (st.nodes.map fun p => (p.1, stepTension st.nodes p.2)).foldl
      (fun d q => d + q.2) 0 = _
  rw [foldl_add_snd]
  unfold debtSum resonanceOnce
  rw [List.map_map, List.map_map, zero_add]
  congr 1

lemma latticeWF_resonanceOnce (st : ContradictionLattice) (h : latticeWF st) :
    latticeWF (resonanceOnce st) := by
  refine ⟨?_, ?_, resonanceOnce_debt st⟩
  · rw [resonanceOnce_keys]; exact h.1
  · intro k hk
    replace hk : k ∈ keysOf (resonanceOnce st).nodes := hk
    rw [resonanceOnce_keys] at hk
    exact h.2.1 k hk

lemma latticeWF_resonance_loop (k : Nat) : ∀ (st : ContradictionLattice),
    latticeWF st → latticeWF (st.resonance_loop k) := by
  induction k with
  | zero => intro st h; exact h
  | succ k ih =>
    intro st h
    show latticeWF ((resonanceOnce st).resonance_loop k)
    exact ih _ (latticeWF_resonanceOnce st h)

lemma tensionsOf_bleedCleanup (nid : Nat) : ∀ (fuel : Nat)
    (l : List (Nat × LatticeNode)) (i : Nat),
    tensionsOf (bleedCleanup nid l i fuel) = tensionsOf l
  | 0, l, i => rfl
  | fuel + 1, l, i => by
    rw [bleedCleanup]
    dsimp only
    split
    · split
      · rw [tensionsOf_bleedCleanup nid fuel]
        exact tensionsOf_setNode l _
          (fun n => { n with connections := removeFirst n.connections nid }) (fun n => rfl)
      · rw [tensionsOf_bleedCleanup nid fuel]
    · rfl

lemma keysOf_bleedCleanup (nid fuel : Nat) (l : List (Nat × LatticeNode))
    (i : Nat) : keysOf (bleedCleanup nid l i fuel) = keysOf l := by
  rw [keysOf_eq_map_tensionsOf, tensionsOf_bleedCleanup, ← keysOf_eq_map_tensionsOf]

lemma bleedOne_next_id (st : ContradictionLattice) (nid : Nat) :
    (bleedOne st nid).next_id = st.next_id := by
  cases hfind : findNode st.nodes nid <;>
    simp only [bleedOne, hfind]

lemma latticeWF_bleedOne (st : ContradictionLattice) (nid : Nat)
    (h : latticeWF st) : latticeWF (bleedOne st nid) := by
  cases hfind : findNode st.nodes nid with
  | none => simp only [bleedOne, hfind]; exact h
  | some node =>
    simp only [bleedOne, hfind]
    have htens : tensionsOf (bleedCleanup nid st.nodes 0 node.connections.length) =
        tensionsOf st.nodes := tensionsOf_bleedCleanup nid _ st.nodes 0
    have hkeys : keysOf (bleedCleanup nid st.nodes 0 node.connections.length) =
        keysOf st.nodes := keysOf_bleedCleanup nid _ st.nodes 0
    have hndc : (keysOf (bleedCleanup nid st.nodes 0 node.connections.length)).Nodup := by
      rw [hkeys]; exact h.1
    have hlook : ∃ n', (bleedCleanup nid st.nodes 0 node.connections.length).lookup nid =
        some n' ∧ n'.tension = node.tension := by
      have h1 := lookup_tensionsOf (bleedCleanup nid st.nodes 0 node.connections.length) nid
      rw [htens, lookup_tensionsOf st.nodes nid] at h1
      rw [show st.nodes.lookup nid = some node from hfind] at h1
      cases hc : (bleedCleanup nid st.nodes 0 node.connections.length).lookup nid with
      | none => rw [hc] at h1; simp at h1
      | some n' =>
        rw [hc] at h1
        simp at h1
        exact ⟨n', rfl, h1.symm⟩
    obtain ⟨n', hn', htn⟩ := hlook
    refine ⟨?_, ?_, ?_⟩
    · show (keysOf (eraseNode _ nid)).Nodup
      have hsub := List.Sublist.map Prod.fst
        (eraseNode_sublist (bleedCleanup nid st.nodes 0 node.connections.length) nid)
      exact List.Nodup.sublist hsub hndc
    · intro k hk
      replace hk : k ∈ keysOf (eraseNode
        (bleedCleanup nid st.nodes 0 node.connections.length) nid) := hk
      have hsub := List.Sublist.map Prod.fst
        (eraseNode_sublist (bleedCleanup nid st.nodes 0 node.connections.length) nid)
      have hk2 : k ∈ keysOf (bleedCleanup nid st.nodes 0 node.connections.length) :=
        hsub.mem hk
      rw [hkeys] at hk2
      exact h.2.1 k hk2
    · show st.epistemic_debt - node.tension = debtSum _
      unfold debtSum
      rw [sum_tension_erase _ nid n' hndc hn']
      rw [map_tension_eq, htens, ← map_tension_eq]
      rw [h.2.2]
      unfold debtSum
      rw [htn]

lemma latticeWF_foldl_bleedOne : ∀ (ids : List Nat) (st : ContradictionLattice),
    latticeWF st → latticeWF (ids.foldl bleedOne st) := by
  intro ids
  induction ids with
  | nil => intro st h; exact h
  | cons nid ids ih =>
    intro st h
    exact ih _ (latticeWF_bleedOne st nid h)

lemma latticeWF_bleed (st : ContradictionLattice) (t : ℚ)
    (h : latticeWF st) : latticeWF (st.bleed t) :=
  latticeWF_foldl_bleedOne _ st h

lemma latticeWF_applyOp (st : ContradictionLattice) (op : LatticeOp)
    (h : latticeWF st) : latticeWF (applyOp st op) := by
  cases op with
  | insert pat t => exact latticeWF_insert st pat t h
  | connect a b => exact latticeWF_connect st a b h
  | update_tension i t => exact latticeWF_update st i t h
  | resonance_loop k => exact latticeWF_resonance_loop k st h
  | bleed t => exact latticeWF_bleed st t h

lemma latticeWF_foldl_applyOp : ∀ (ops : List LatticeOp)
    (st : ContradictionLattice), latticeWF st →
    latticeWF (ops.foldl applyOp st) := by
  intro ops
  induction ops with
  | nil => intro st h; exact h
  | cons op ops ih =>
    intro st h
    exact ih _ (latticeWF_applyOp st op h)

/-! # Claim theorem: the epistemic-debt invariant -/

/-- C1: after every sequence of public mutating calls on a
`ContradictionLattice` starting from the empty lattice, `epistemic_debt`
equals the exact sum of the tension values of all live nodes (exact
rational equality, hence within any floating-point tolerance). -/
theorem C1_epistemic_debt_invariant (ops : List LatticeOp) :
    (runOps ops).epistemic_debt = debtSum (runOps ops) :=
  (latticeWF_foldl_applyOp ops ContradictionLattice.empty latticeWF_empty).2.2

/-- C9: `connect` and `update_tension` treat unknown node ids as silent
no-ops; on present ids `connect` adds a symmetric edge (a no-op when the
edge already exists) and `update_tension` overwrites the node's tension,
adjusting `epistemic_debt` by exactly the new tension minus the old one and
leaving all other nodes, `next_id` and the rest of the state unchanged. -/
theorem C9_unknown_id_tolerance (st : ContradictionLattice) (a b j i : Nat)
    (t : ℚ) (na nb n : LatticeNode) :
    (findNode st.nodes a = none → st.connect a b = st) ∧
    (findNode st.nodes b = none → st.connect a b = st) ∧
    (findNode st.nodes a = some na → b ∈ na.connections → st.connect a b = st) ∧
    (findNode st.nodes a = some na → findNode st.nodes b = some nb →
      b ∉ na.connections → a ≠ b →
      findNode (st.connect a b).nodes a =
        some { na with connections := na.connections ++ [b] } ∧
      findNode (st.connect a b).nodes b =
        some { nb with connections := nb.connections ++ [a] } ∧
      (j ≠ a → j ≠ b → findNode (st.connect a b).nodes j = findNode st.nodes j) ∧
      (st.connect a b).epistemic_debt = st.epistemic_debt ∧
      (st.connect a b).next_id = st.next_id) ∧
    (findNode st.nodes i = none → st.update_tension i t = st) ∧
    (findNode st.nodes i = some n →
      (st.update_tension i t).epistemic_debt =
        st.epistemic_debt + (t - n.tension) ∧
      findNode (st.update_tension i t).nodes i = some { n with tension := t } ∧
      (j ≠ i → findNode (st.update_tension i t).nodes j = findNode st.nodes j) ∧
      (st.update_tension i t).next_id = st.next_id) := by
  refine ⟨?_, ?_, ?_, ?_, ?_, ?_⟩
  · intro h
    cases hb2 : findNode st.nodes b <;>
      simp only [ContradictionLattice.connect, h, hb2]
  · intro h
    cases ha2 : findNode st.nodes a <;>
      simp only [ContradictionLattice.connect, h, ha2]
  · intro ha hmem
    cases hb2 : findNode st.nodes b <;>
      simp only [ContradictionLattice.connect, ha, hb2, hmem, if_true]
  · intro ha hb hmem hab
    have hconn : st.connect a b = ContradictionLattice.mk
        (setNode (setNode st.nodes a (fun m => { m with connections := m.connections ++ [b] }))
          b (fun m => { m with connections := m.connections ++ [a] }))
        st.next_id st.epistemic_debt := by
      simp only [ContradictionLattice.connect, ha, hb, hmem, if_false]
    refine ⟨?_, ?_, ?_, ?_, ?_⟩
    · rw [hconn]
      show List.lookup a (setNode (setNode st.nodes a
        (fun m => { m with connections := m.connections ++ [b] }))
        b (fun m => { m with connections := m.connections ++ [a] })) = _
      rw [lookup_setNode_ne _ b a _ hab]
      exact lookup_setNode_self st.nodes a _ na ha
    · rw [hconn]
      show List.lookup b (setNode (setNode st.nodes a
        (fun m => { m with connections := m.connections ++ [b] }))
        b (fun m => { m with connections := m.connections ++ [a] })) = _
      refine lookup_setNode_self _ b _ nb ?_
      show List.lookup b (setNode st.nodes a
        (fun m => { m with connections := m.connections ++ [b] })) = some nb
      rw [lookup_setNode_ne _ a b _ (fun hh => hab hh.symm)]
      exact hb
    · intro hja hjb
      rw [hconn]
      show List.lookup j (setNode (setNode st.nodes a
        (fun m => { m with connections := m.connections ++ [b] }))
        b (fun m => { m with connections := m.connections ++ [a] })) = _
      rw [lookup_setNode_ne _ b j _ hjb, lookup_setNode_ne _ a j _ hja]
      rfl
    · rw [hconn]
    · rw [hconn]
  · intro h
    simp only [ContradictionLattice.update_tension, h]
  · intro h
    simp only [ContradictionLattice.update_tension, h]
    refine ⟨trivial, ?_, ?_, trivial⟩
    · show List.lookup i (setNode st.nodes i (fun m => { m with tension := t })) = _
      exact lookup_setNode_self st.nodes i _ n h
    · intro hji
      show List.lookup j (setNode st.nodes i (fun m => { m with tension := t })) = _
      exact lookup_setNode_ne st.nodes i j _ hji

/-- C9 witness: on the concrete four-node lattice, connecting through an
absent id or an existing edge changes nothing, a fresh edge is recorded
symmetrically, updating an absent id changes nothing, and a real update
shifts the debt by the exact delta. -/
theorem C9_unknown_id_tolerance_witness :
    lat4.connect 7 0 = lat4 ∧
    lat4.connect 0 3 = lat4 ∧
    findNode (lat4.connect 0 1).nodes 0 = some ⟨dummyPattern, 1/10, [3, 1]⟩ ∧
    findNode (lat4.connect 0 1).nodes 1 = some ⟨dummyPattern, 2/10, [0]⟩ ∧
    lat4.update_tension 9 (1/2) = lat4 ∧
    (lat4.update_tension 2 1).epistemic_debt =
      lat4.epistemic_debt + (1 - 3/10) := by
  refine ⟨?_, ?_, ?_, ?_, ?_, ?_⟩
  · exact (C9_unknown_id_tolerance lat4 7 0 0 0 0 ⟨dummyPattern, 0, []⟩
      ⟨dummyPattern, 0, []⟩ ⟨dummyPattern, 0, []⟩).1 rfl
  · exact (C9_unknown_id_tolerance lat4 0 3 0 0 0 ⟨dummyPattern, 1/10, [3]⟩
      ⟨dummyPattern, 0, []⟩ ⟨dummyPattern, 0, []⟩).2.2.1 rfl (by decide)
  · exact ((C9_unknown_id_tolerance lat4 0 1 5 0 0 ⟨dummyPattern, 1/10, [3]⟩
      ⟨dummyPattern, 2/10, []⟩ ⟨dummyPattern, 0, []⟩).2.2.2.1 rfl rfl
      (by decide) (by decide)).1
  · exact ((C9_unknown_id_tolerance lat4 0 1 5 0 0 ⟨dummyPattern, 1/10, [3]⟩
      ⟨dummyPattern, 2/10, []⟩ ⟨dummyPattern, 0, []⟩).2.2.2.1 rfl rfl
      (by decide) (by decide)).2.1
  · exact (C9_unknown_id_tolerance lat4 0 0 0 9 (1/2) ⟨dummyPattern, 0, []⟩
      ⟨dummyPattern, 0, []⟩ ⟨dummyPattern, 0, []⟩).2.2.2.2.1 rfl
  · exact ((C9_unknown_id_tolerance lat4 0 0 0 2 1 ⟨dummyPattern, 0, []⟩
      ⟨dummyPattern, 0, []⟩ ⟨dummyPattern, 3/10, [3]⟩).2.2.2.2.2 rfl).1

/-! # Evaluation of the resonance scenario -/

lemma lat3_nodes : lat3.nodes = lat3Nodes := rfl

lemma step_lat3_0 : stepTension lat3.nodes ⟨dummyPattern, 9/10, [1, 2]⟩ = 11/30 := by
  have e1 : neighborTension lat3.nodes 1 = 1/10 := rfl
  have e2 : neighborTension lat3.nodes 2 = 1/10 := rfl
  norm_num [stepTension, e1, e2, List.foldl_cons, List.foldl_nil]

lemma step_lat3_1 : stepTension lat3.nodes ⟨dummyPattern, 1/10, [0]⟩ = 1/2 := by
  have e0 : neighborTension lat3.nodes 0 = 9/10 := rfl
  norm_num [stepTension, e0, List.foldl_cons, List.foldl_nil]

lemma lat3_res_nodes : (lat3.resonance_loop 1).nodes =
    [(0, ⟨dummyPattern, 11/30, [1, 2]⟩), (1, ⟨dummyPattern, 1/2, [0]⟩),
     (2, ⟨dummyPattern, 1/2, [0]⟩)] := by
  have h : (lat3.resonance_loop 1).nodes = lat3.nodes.map
      (fun p => (p.1, LatticeNode.mk p.2.pattern
        (stepTension lat3.nodes p.2) p.2.connections)) := rfl
  rw [h]
  nth_rewrite 2 [lat3_nodes]
  simp only [lat3Nodes, List.map_cons, List.map_nil]
  rw [step_lat3_0, step_lat3_1]

lemma lat3_res_debt : (lat3.resonance_loop 1).epistemic_debt = 41/30 := by
  have h : (lat3.resonance_loop 1).epistemic_debt =
      (lat3.nodes.map fun p => (p.1, stepTension lat3.nodes p.2)).foldl
        (fun d q => d + q.2) 0 := rfl
  rw [h, foldl_add_snd, List.map_map]
  nth_rewrite 2 [lat3_nodes]
  simp only [lat3Nodes, List.map_cons, List.map_nil, Function.comp]
  rw [step_lat3_0, step_lat3_1]
  norm_num

/-! # Claim theorems: resonance -/

/-- C3 counterexample: `resonance_loop` has no `damping` parameter (the
claimed call raises `TypeError`), and on the claimed scenario one code
iteration leaves `epistemic_debt` at 41/30, not 1.9, with node 0 at 11/30,
not 0.1. -/
theorem C3_resonance_counterexample :
    resonanceCall lat3 (some 1) (some 1) =
      .error "TypeError: resonance_loop got an unexpected keyword argument damping" ∧
    (lat3.resonance_loop 1).epistemic_debt ≠ 19/10 ∧
    (((lat3.resonance_loop 1).nodes.lookup 0).map fun m => m.tension) ≠
      some (1/10) := by
  refine ⟨rfl, ?_, ?_⟩
  · rw [lat3_res_debt]
    norm_num
  · rw [lat3_res_nodes]
    simp [lookup_pair_cons]
    norm_num

/-- C3 amended: `resonance_loop(iterations)` takes no damping parameter; in
each iteration every node's tension is updated simultaneously from
pre-iteration values to `(old + Σ neighbour tensions) / (degree + 1)` —
equivalently, it moves toward the neighbour mean by the fixed factor
`degree/(degree+1)` — nodes with no neighbours are unchanged, and after the
iterations `epistemic_debt` is recomputed as the exact sum of the final
tensions.  On the scenario (tensions 0.9, 0.1, 0.1, node 0 connected to
nodes 1 and 2) one iteration gives node 0 tension 11/30, nodes 1 and 2
tension 1/2, and `epistemic_debt` 41/30. -/
theorem C3_resonance_amended :
    (∀ st : ContradictionLattice, (resonanceOnce st).nodes =
      st.nodes.map fun p => (p.1, { p.2 with tension := stepTension st.nodes p.2 })) ∧
    (∀ (nodes : List (Nat × LatticeNode)) (n : LatticeNode),
      n.connections = [] → stepTension nodes n = n.tension) ∧
    (∀ (nodes : List (Nat × LatticeNode)) (n : LatticeNode), n.connections ≠ [] →
      stepTension nodes n = n.tension +
        ((n.connections.length : ℚ) / (n.connections.length + 1)) *
          ((n.connections.map (neighborTension nodes)).sum / n.connections.length
            - n.tension)) ∧
    (∀ (st : ContradictionLattice) (k : Nat), 0 < k →
      (st.resonance_loop k).epistemic_debt = debtSum (st.resonance_loop k)) ∧
    ((lat3.resonance_loop 1).nodes.map fun p => (p.1, p.2.tension)) =
      [(0, 11/30), (1, 1/2), (2, 1/2)] ∧
    (lat3.resonance_loop 1).epistemic_debt = 41/30 := by
  refine ⟨fun st => rfl, ?_, ?_, ?_, ?_, lat3_res_debt⟩
  · intro nodes n h
    simp [stepTension, h]
  · intro nodes n h
    have hne : n.connections.length ≠ 0 := fun hh =>
      h (List.length_eq_zero.mp hh)
    have hq : (n.connections.length : ℚ) ≠ 0 := Nat.cast_ne_zero.mpr hne
    have hq1 : (n.connections.length : ℚ) + 1 ≠ 0 := by positivity
    rw [stepTension, if_neg (by simpa [List.isEmpty_iff] using h)]
    rw [foldl_add_neighbor]
    field_simp
    ring
  · intro st k hk
    obtain ⟨m, rfl⟩ : ∃ m, k = m + 1 := ⟨k - 1, by omega⟩
    clear hk
    induction m generalizing st with
    | zero => exact resonanceOnce_debt st
    | succ m ih =>
      show ((resonanceOnce st).resonance_loop (m + 1)).epistemic_debt =
        debtSum ((resonanceOnce st).resonance_loop (m + 1))
      exact ih (resonanceOnce st)
  · rw [lat3_res_nodes]
    rfl

/-- C3 amended witness: the debt recomputation applies at one iteration on
the scenario lattice, and the tension-update formula evaluates on node 1 of
the scenario to 1/2. -/
theorem C3_resonance_amended_witness :
    (lat3.resonance_loop 1).epistemic_debt = debtSum (lat3.resonance_loop 1) ∧
    stepTension lat3Nodes ⟨dummyPattern, 1/10, [0]⟩ = 1/2 := by
  constructor
  · exact C3_resonance_amended.2.2.2.1 lat3 1 (by decide)
  · have e0 : neighborTension lat3Nodes 0 = 9/10 := rfl
    rw [C3_resonance_amended.2.2.1 lat3Nodes ⟨dummyPattern, 1/10, [0]⟩ (by decide)]
    norm_num [e0]

/-! # Lemmas about `removeFirst` and entry lookup -/

lemma removeFirst_sublist (c : List Nat) (v : Nat) : (removeFirst c v).Sublist c := by
  induction c with
  | nil => simp [removeFirst]
  | cons x xs ih =>
    rw [removeFirst]
    by_cases h : x = v
    · rw [if_pos h]
      exact (List.sublist_cons_self x xs)
    · rw [if_neg h]
      exact List.Sublist.cons₂ x ih

lemma mem_removeFirst_of_ne (c : List Nat) (v x : Nat) (h : x ≠ v) :
    x ∈ removeFirst c v ↔ x ∈ c := by
  induction c with
  | nil => simp [removeFirst]
  | cons y ys ih =>
    rw [removeFirst]
    by_cases hy : y = v
    · rw [if_pos hy]
      subst hy
      constructor
      · intro hx
        exact List.mem_cons_of_mem _ hx
      · intro hx
        rcases List.mem_cons.mp hx with hx | hx
        · exact absurd hx h
        · exact hx
    · rw [if_neg hy]
      rw [List.mem_cons, List.mem_cons, ih]

lemma not_mem_removeFirst_self (c : List Nat) (v : Nat) (h : c.Nodup) :
    v ∉ removeFirst c v := by
  induction c with
  | nil => simp [removeFirst]
  | cons y ys ih =>
    rw [List.nodup_cons] at h
    rw [removeFirst]
    by_cases hy : y = v
    · rw [if_pos hy]
      subst hy
      exact h.1
    · rw [if_neg hy]
      rw [List.mem_cons, not_or]
      exact ⟨fun hh => hy hh.symm, ih h.2⟩

lemma lookup_eq_of_mem_nodup (l : List (Nat × LatticeNode)) (k : Nat)
    (m : LatticeNode) (hnd : (keysOf l).Nodup) (h : (k, m) ∈ l) :
    l.lookup k = some m := by
  induction l with
  | nil => simp at h
  | cons p l ih =>
    obtain ⟨k', v⟩ := p
    rw [keysOf_cons, List.nodup_cons] at hnd
    rw [List.mem_cons] at h
    rw [lookup_pair_cons]
    rcases h with h | h
    · rw [Prod.mk.injEq] at h
      rw [if_pos h.1, h.2]
    · have hk : k ≠ k' := by
        intro hh
        subst hh
        exact hnd.1 (List.mem_map_of_mem Prod.fst h)
      rw [if_neg hk]
      exact ih hnd.2 h

lemma mem_of_lookup_eq (l : List (Nat × LatticeNode)) (k : Nat)
    (m : LatticeNode) (h : l.lookup k = some m) : (k, m) ∈ l := by
  induction l with
  | nil => simp [List.lookup] at h
  | cons p l ih =>
    obtain ⟨k', v⟩ := p
    rw [lookup_pair_cons] at h
    by_cases hk : k = k'
    · rw [if_pos hk] at h
      rw [Option.some_inj] at h
      subst hk
      subst h
      exact List.mem_cons_self _ _
    · rw [if_neg hk] at h
      exact List.mem_cons_of_mem _ (ih h)

lemma keysOf_eraseNode (l : List (Nat × LatticeNode)) (i : Nat) :
    keysOf (eraseNode l i) = (keysOf l).filter fun k => decide (k ≠ i) := by
  induction l with
  | nil => rfl
  | cons p l ih =>
    obtain ⟨k, v⟩ := p
    rw [eraseNode_cons, keysOf_cons, List.filter_cons]
    by_cases hk : k = i
    · rw [if_pos hk]
      simp [hk, ih]
    · rw [if_neg hk]
      rw [keysOf_cons]
      simp [hk, ih]

lemma tensionsOf_eraseNode (l : List (Nat × LatticeNode)) (i : Nat) :
    tensionsOf (eraseNode l i) = (tensionsOf l).filter fun q => decide (q.1 ≠ i) := by
  induction l with
  | nil => rfl
  | cons p l ih =>
    obtain ⟨k, v⟩ := p
    rw [eraseNode_cons, tensionsOf_cons, List.filter_cons]
    by_cases hk : k = i
    · rw [if_pos hk]
      simp [hk, ih]
    · rw [if_neg hk]
      rw [tensionsOf_cons]
      simp [hk, ih]

/-! # The id/tension effect of `bleed` -/

lemma filter_ne_eq_self (T : List (Nat × ℚ)) (i : Nat)
    (h : i ∉ T.map Prod.fst) : (T.filter fun q => decide (q.1 ≠ i)) = T := by
  induction T with
  | nil => rfl
  | cons q T ih =>
    rw [List.map_cons, List.mem_cons, not_or] at h
    rw [List.filter_cons]
    simp only [decide_eq_true_eq]
    rw [if_pos (fun hh => h.1 hh.symm)]
    rw [ih h.2]

lemma tensionsOf_bleedOne (st : ContradictionLattice) (nid : Nat) :
    tensionsOf (bleedOne st nid).nodes =
      (tensionsOf st.nodes).filter fun q => decide (q.1 ≠ nid) := by
  cases hfind : findNode st.nodes nid with
  | none =>
    simp only [bleedOne, hfind]
    rw [filter_ne_eq_self]
    intro hmem
    rw [← keysOf_eq_map_tensionsOf] at hmem
    obtain ⟨n, hn⟩ := lookup_of_mem_keysOf st.nodes nid hmem
    rw [show st.nodes.lookup nid = findNode st.nodes nid from rfl, hfind] at hn
    exact Option.noConfusion hn
  | some node =>
    simp only [bleedOne, hfind]
    rw [tensionsOf_eraseNode, tensionsOf_bleedCleanup]

lemma map_fst_filter_ne (T : List (Nat × ℚ)) (nid : Nat) :
    (T.filter fun q => decide (q.1 ≠ nid)).map Prod.fst =
      (T.map Prod.fst).filter fun k => decide (k ≠ nid) := by
  induction T with
  | nil => rfl
  | cons q T ih =>
    rw [List.filter_cons, List.map_cons, List.filter_cons]
    by_cases h : q.1 = nid
    · rw [if_neg (show ¬(decide (q.1 ≠ nid) = true) from by simp [h]),
        if_neg (show ¬(decide (q.1 ≠ nid) = true) from by simp [h]), ih]
    · rw [if_pos (show decide (q.1 ≠ nid) = true from by simp [h]),
        if_pos (show decide (q.1 ≠ nid) = true from by simp [h]),
        List.map_cons, ih]

lemma keysOf_bleedOne (st : ContradictionLattice) (nid : Nat) :
    keysOf (bleedOne st nid).nodes = (keysOf st.nodes).filter fun k => decide (k ≠ nid) := by
  rw [keysOf_eq_map_tensionsOf, tensionsOf_bleedOne, keysOf_eq_map_tensionsOf]
  exact map_fst_filter_ne (tensionsOf st.nodes) nid

lemma filter_mem_cons_of_ne (T : List (Nat × ℚ)) (k : Nat) (ids : List Nat)
    (h : ∀ q ∈ T, q.1 ≠ k) :
    (T.filter fun q => decide (q.1 ∈ k :: ids)) = T.filter fun q => decide (q.1 ∈ ids) := by
  induction T with
  | nil => rfl
  | cons q T ih =>
    rw [List.filter_cons, List.filter_cons]
    have hq : q.1 ≠ k := h q (List.mem_cons_self _ _)
    have hT : ∀ q ∈ T, q.1 ≠ k := fun q hs => h q (List.mem_cons_of_mem _ hs)
    by_cases hm : q.1 ∈ ids
    · rw [if_pos (show decide (q.1 ∈ k :: ids) = true from by
          simp [List.mem_cons, hm]),
        if_pos (show decide (q.1 ∈ ids) = true from by simp [hm]), ih hT]
    · rw [if_neg (show ¬(decide (q.1 ∈ k :: ids) = true) from by
          simp [List.mem_cons, hq, hm]),
        if_neg (show ¬(decide (q.1 ∈ ids) = true) from by simp [hm]), ih hT]

lemma filter_ne_then_mem (T : List (Nat × ℚ)) (nid : Nat) (ids : List Nat)
    (hni : nid ∉ ids) :
    ((T.filter fun q => decide (q.1 ≠ nid)).filter fun q => decide (q.1 ∈ ids)) =
      T.filter fun q => decide (q.1 ∈ ids) := by
  induction T with
  | nil => rfl
  | cons q T ih =>
    rw [List.filter_cons, List.filter_cons]
    by_cases hq : q.1 = nid
    · rw [if_neg (show ¬(decide (q.1 ≠ nid) = true) from by simp [hq]),
        if_neg (show ¬(decide (q.1 ∈ ids) = true) from by
          simp only [decide_eq_true_eq]
          rw [hq]
          exact hni),
        ih]
    · rw [if_pos (show decide (q.1 ≠ nid) = true from by simp [hq]),
        List.filter_cons]
      by_cases hm : q.1 ∈ ids
      · rw [if_pos (show decide (q.1 ∈ ids) = true from by simp [hm]),
          if_pos (show decide (q.1 ∈ ids) = true from by simp [hm]), ih]
      · rw [if_neg (show ¬(decide (q.1 ∈ ids) = true) from by simp [hm]),
          if_neg (show ¬(decide (q.1 ∈ ids) = true) from by simp [hm]), ih]

lemma sum_filter_mem_cons (T : List (Nat × ℚ)) (nid : Nat) (ids : List Nat)
    (hnd : (T.map Prod.fst).Nodup) (v : ℚ) (hlook : T.lookup nid = some v)
    (hni : nid ∉ ids) :
    (((T.filter fun q => decide (q.1 ∈ nid :: ids)).map Prod.snd).sum) =
      v + ((T.filter fun q => decide (q.1 ∈ ids)).map Prod.snd).sum := by
  induction T with
  | nil => simp [List.lookup] at hlook
  | cons q T ih =>
    obtain ⟨k, x⟩ := q
    rw [List.map_cons, List.nodup_cons] at hnd
    rw [lookup_pair_cons] at hlook
    rw [List.filter_cons, List.filter_cons]
    by_cases hk : nid = k
    · rw [if_pos hk] at hlook
      rw [Option.some_inj] at hlook
      subst hlook
      subst hk
      rw [if_pos (show decide ((nid, x).1 ∈ nid :: ids) = true from by
        simp [List.mem_cons])]
      have hT : ∀ r ∈ T, r.1 ≠ nid := by
        intro r hr hh
        have hmm : nid ∈ List.map Prod.fst T := by
          rw [← hh]
          exact List.mem_map_of_mem Prod.fst hr
        exact hnd.1 hmm
      rw [filter_mem_cons_of_ne T nid ids hT]
      rw [if_neg (show ¬(decide ((nid, x).1 ∈ ids) = true) from by simp [hni])]
      rw [List.map_cons, List.sum_cons]
    · rw [if_neg hk] at hlook
      by_cases hm : k ∈ ids
      · rw [if_pos (show decide ((k, x).1 ∈ nid :: ids) = true from by
            simp [List.mem_cons, hm]),
          if_pos (show decide ((k, x).1 ∈ ids) = true from by simp [hm])]
        rw [List.map_cons, List.sum_cons, List.map_cons, List.sum_cons]
        rw [ih hnd.2 hlook]
        ring
      · rw [if_neg (show ¬(decide ((k, x).1 ∈ nid :: ids) = true) from by
            simp [List.mem_cons, hm]
            exact fun hh => hk hh.symm),
          if_neg (show ¬(decide ((k, x).1 ∈ ids) = true) from by simp [hm])]
        exact ih hnd.2 hlook

lemma filter_ne_notmem (T : List (Nat × ℚ)) (nid : Nat) (ids : List Nat) :
    ((T.filter fun q => decide (q.1 ≠ nid)).filter fun q => decide (q.1 ∉ ids)) =
      T.filter fun q => decide (q.1 ∉ nid :: ids) := by
  induction T with
  | nil => rfl
  | cons q T ih =>
    rw [List.filter_cons, List.filter_cons]
    by_cases hq : q.1 = nid
    · rw [if_neg (show ¬(decide (q.1 ≠ nid) = true) from by simp [hq]),
        if_neg (show ¬(decide (q.1 ∉ nid :: ids) = true) from by
          simp [List.mem_cons, hq]),
        ih]
    · rw [if_pos (show decide (q.1 ≠ nid) = true from by simp [hq]),
        List.filter_cons]
      by_cases hm : q.1 ∈ ids
      · rw [if_neg (show ¬(decide (q.1 ∉ ids) = true) from by simp [hm]),
          if_neg (show ¬(decide (q.1 ∉ nid :: ids) = true) from by
            simp [List.mem_cons, hm]),
          ih]
      · rw [if_pos (show decide (q.1 ∉ ids) = true from by simp [hm]),
          if_pos (show decide (q.1 ∉ nid :: ids) = true from by
            simp [List.mem_cons, hq, hm]),
          ih]

lemma bleed_foldl_effect : ∀ (ids : List Nat) (st : ContradictionLattice),
    (keysOf st.nodes).Nodup → ids.Nodup →
    (∀ x ∈ ids, x ∈ keysOf st.nodes) →
    tensionsOf (ids.foldl bleedOne st).nodes =
      (tensionsOf st.nodes).filter (fun q => decide (q.1 ∉ ids)) ∧
    (ids.foldl bleedOne st).epistemic_debt = st.epistemic_debt -
      (((tensionsOf st.nodes).filter fun q => decide (q.1 ∈ ids)).map Prod.snd).sum := by
  intro ids
  induction ids with
  | nil =>
    intro st hnd _ _
    constructor
    · simp
    · simp
  | cons nid ids ih =>
    intro st hnd hids hsub
    rw [List.nodup_cons] at hids
    have hmem : nid ∈ keysOf st.nodes := hsub nid (List.mem_cons_self _ _)
    obtain ⟨node, hnode⟩ := lookup_of_mem_keysOf st.nodes nid hmem
    have hlookT : (tensionsOf st.nodes).lookup nid = some node.tension := by
      rw [lookup_tensionsOf, hnode]
      rfl
    have hdebt1 : (bleedOne st nid).epistemic_debt = st.epistemic_debt - node.tension := by
      simp only [bleedOne, show findNode st.nodes nid = some node from hnode]
    have hkeys1 : keysOf (bleedOne st nid).nodes =
        (keysOf st.nodes).filter fun k => decide (k ≠ nid) := keysOf_bleedOne st nid
    have hnd1 : (keysOf (bleedOne st nid).nodes).Nodup := by
      rw [hkeys1]
      exact List.Nodup.filter _ hnd
    have hsub1 : ∀ x ∈ ids, x ∈ keysOf (bleedOne st nid).nodes := by
      intro x hx
      rw [hkeys1, List.mem_filter]
      refine ⟨hsub x (List.mem_cons_of_mem _ hx), ?_⟩
      simp only [decide_eq_true_eq]
      intro hh
      exact hids.1 (hh ▸ hx)
    obtain ⟨hT, hD⟩ := ih (bleedOne st nid) hnd1 hids.2 hsub1
    have hT1 := tensionsOf_bleedOne st nid
    have hndT : ((tensionsOf st.nodes).map Prod.fst).Nodup := by
      rw [← keysOf_eq_map_tensionsOf]
      exact hnd
    constructor
    · rw [List.foldl_cons, hT, hT1, filter_ne_notmem]
    · rw [List.foldl_cons, hD, hdebt1, hT1]
      rw [filter_ne_then_mem _ nid ids hids.1]
      rw [sum_filter_mem_cons (tensionsOf st.nodes) nid ids hndT node.tension hlookT hids.1]
      ring

lemma filter_notmem_cons_of_ne (T : List (Nat × ℚ)) (k : Nat) (ids : List Nat)
    (h : ∀ q ∈ T, q.1 ≠ k) :
    (T.filter fun q => decide (q.1 ∉ k :: ids)) = T.filter fun q => decide (q.1 ∉ ids) := by
  induction T with
  | nil => rfl
  | cons q T ih =>
    rw [List.filter_cons, List.filter_cons]
    have hq : q.1 ≠ k := h q (List.mem_cons_self _ _)
    have hT : ∀ q ∈ T, q.1 ≠ k := fun q hs => h q (List.mem_cons_of_mem _ hs)
    by_cases hm : q.1 ∈ ids
    · rw [if_neg (show ¬(decide (q.1 ∉ k :: ids) = true) from by
          simp [List.mem_cons, hm]),
        if_neg (show ¬(decide (q.1 ∉ ids) = true) from by simp [hm]), ih hT]
    · rw [if_pos (show decide (q.1 ∉ k :: ids) = true from by
          simp [List.mem_cons, hq, hm]),
        if_pos (show decide (q.1 ∉ ids) = true from by simp [hm]), ih hT]

lemma keys_not_mem_tensions (l : List (Nat × LatticeNode)) (k : Nat)
    (h : k ∉ keysOf l) : ∀ q ∈ tensionsOf l, q.1 ≠ k := by
  intro q hq hh
  apply h
  rw [keysOf_eq_map_tensionsOf, ← hh]
  exact List.mem_map_of_mem Prod.fst hq

lemma removed_ids_sub (l : List (Nat × LatticeNode))
    (c : (Nat × LatticeNode) → Bool) :
    ((l.filter c).map Prod.fst).Sublist (keysOf l) :=
  List.Sublist.map Prod.fst (List.filter_sublist l)

lemma filter_mem_removed (l : List (Nat × LatticeNode))
    (c : (Nat × LatticeNode) → Bool) (hnd : (keysOf l).Nodup) :
    ((tensionsOf l).filter fun q => decide (q.1 ∈ (l.filter c).map Prod.fst)) =
      tensionsOf (l.filter c) ∧
    ((tensionsOf l).filter fun q => decide (q.1 ∉ (l.filter c).map Prod.fst)) =
      tensionsOf (l.filter fun p => !c p) := by
  induction l with
  | nil => exact ⟨rfl, rfl⟩
  | cons p l ih =>
    obtain ⟨k, v⟩ := p
    rw [keysOf_cons, List.nodup_cons] at hnd
    obtain ⟨ihm, ihn⟩ := ih hnd.2
    have hne : ∀ q ∈ tensionsOf l, q.1 ≠ k := keys_not_mem_tensions l k hnd.1
    have hsubk : k ∉ (l.filter c).map Prod.fst := by
      intro hmem
      exact hnd.1 ((removed_ids_sub l c).subset hmem)
    by_cases hc : c (k, v)
    · have hf : ((k, v) :: l).filter c = (k, v) :: l.filter c := by
        rw [List.filter_cons, if_pos hc]
      have hfn : ((k, v) :: l).filter (fun p => !c p) = l.filter (fun p => !c p) := by
        rw [List.filter_cons, if_neg (show ¬((!c (k, v)) = true) from by simp [hc])]
      rw [hf, hfn, tensionsOf_cons, List.map_cons]
      constructor
      · rw [List.filter_cons,
          if_pos (show decide ((k, v.tension).1 ∈ k :: (l.filter c).map Prod.fst) = true
            from by simp [List.mem_cons]),
          filter_mem_cons_of_ne _ _ _ hne, ihm, tensionsOf_cons]
      · rw [List.filter_cons,
          if_neg (show ¬(decide ((k, v.tension).1 ∉ k :: (l.filter c).map Prod.fst) = true)
            from by simp [List.mem_cons]),
          filter_notmem_cons_of_ne _ _ _ hne, ihn]
    · have hf : ((k, v) :: l).filter c = l.filter c := by
        rw [List.filter_cons, if_neg (show ¬(c (k, v) = true) from hc)]
      have hfn : ((k, v) :: l).filter (fun p => !c p) = (k, v) :: l.filter (fun p => !c p) := by
        rw [List.filter_cons, if_pos (show (!c (k, v)) = true from by simp [hc])]
      rw [hf, hfn, tensionsOf_cons]
      constructor
      · rw [List.filter_cons,
          if_neg (show ¬(decide ((k, v.tension).1 ∈ (l.filter c).map Prod.fst) = true)
            from by simp [hsubk]),
          ihm]
      · rw [List.filter_cons,
          if_pos (show decide ((k, v.tension).1 ∉ (l.filter c).map Prod.fst) = true
            from by simp [hsubk]),
          ihn, tensionsOf_cons]

lemma foldl_bleedOne_next_id : ∀ (ids : List Nat) (st : ContradictionLattice),
    (ids.foldl bleedOne st).next_id = st.next_id := by
  intro ids
  induction ids with
  | nil => intro st; rfl
  | cons nid ids ih =>
    intro st
    rw [List.foldl_cons, ih, bleedOne_next_id]

/-! # Evaluation of the bleed scenario -/

lemma lat4_nodes : lat4.nodes = lat4Nodes := rfl

lemma lat4_debt : lat4.epistemic_debt = 1 := by
  show (0 : ℚ) + 1/10 + 2/10 + 3/10 + 4/10 = 1
  norm_num

lemma lat4_bleed_eq : lat4.bleed (1/4) = bleedOne (bleedOne lat4 0) 1 := by
  unfold ContradictionLattice.bleed
  have ht : ((lat4.nodes.filter fun p => decide (p.2.tension < (1/4 : ℚ))).map
      fun p => p.1) = [0, 1] := by
    rw [lat4_nodes]
    simp only [lat4Nodes, List.filter_cons, List.filter_nil]
    norm_num
  rw [ht]
  rfl

lemma lat4_bleed_nodes : (lat4.bleed (1/4)).nodes =
    [(2, ⟨dummyPattern, 3/10, [3]⟩), (3, ⟨dummyPattern, 4/10, [2]⟩)] := by
  rw [lat4_bleed_eq]
  rfl

lemma lat4_bleed_debt : (lat4.bleed (1/4)).epistemic_debt = 7/10 := by
  rw [lat4_bleed_eq]
  show lat4.epistemic_debt - 1/10 - 2/10 = 7/10
  rw [lat4_debt]
  norm_num

/-! # Claim theorems: bleed -/

/-- C4 counterexample: `bleed` has no `fraction` parameter and its
`threshold` is a required argument: the claimed scenario call
`bleed(fraction=0.5)` raises `TypeError` instead of removing the two
lowest-tension nodes, and a call with neither argument raises `TypeError`
instead of being a no-op. -/
theorem C4_bleed_counterexample :
    bleedCall lat4 none (some (1/2)) =
      .error "TypeError: bleed got an unexpected keyword argument fraction" ∧
    bleedCall lat4 none none =
      .error "TypeError: bleed missing 1 required positional argument: threshold" :=
  ⟨rfl, rfl⟩

/-! # The cleanup loop clears back references (proper graphs) -/

lemma lookup_cleanupStep_ne (nid : Nat) (l : List (Nat × LatticeNode))
    (y k : Nat) (h : k ≠ y) :
    (cleanupStep nid l y).lookup k = l.lookup k := by
  unfold cleanupStep
  split
  · exact lookup_setNode_ne l y k _ h
  · rfl

lemma keysOf_cleanupStep (nid : Nat) (l : List (Nat × LatticeNode)) (y : Nat) :
    keysOf (cleanupStep nid l y) = keysOf l := by
  unfold cleanupStep
  split
  · exact keysOf_setNode l y _
  · rfl

lemma bleedCleanup_eq_foldl (nid : Nat) : ∀ (fuel : Nat)
    (l : List (Nat × LatticeNode)) (i : Nat) (n : LatticeNode),
    l.lookup nid = some n → nid ∉ n.connections →
    i + fuel = n.connections.length →
    bleedCleanup nid l i fuel = (n.connections.drop i).foldl (cleanupStep nid) l
  | 0, l, i, n, hl, hn, hlen => by
    have hd : n.connections.drop i = [] := List.drop_eq_nil_of_le (by omega)
    rw [hd]
    rfl
  | fuel + 1, l, i, n, hl, hn, hlen => by
    rw [bleedCleanup]
    dsimp only
    have hconns : ((findNode l nid).map fun m => m.connections).getD [] =
        n.connections := by
      rw [show findNode l nid = some n from hl]
      rfl
    rw [hconns]
    have hi : i < n.connections.length := by omega
    rw [dif_pos hi]
    have hy : n.connections[i] ∈ n.connections := List.getElem_mem hi
    have hyne : n.connections[i] ≠ nid := fun hh => hn (hh ▸ hy)
    have hl1 : (cleanupStep nid l n.connections[i]).lookup nid = some n := by
      rw [lookup_cleanupStep_ne nid l _ nid (fun hh => hyne hh.symm)]
      exact hl
    rw [List.drop_eq_getElem_cons hi, List.foldl_cons]
    exact bleedCleanup_eq_foldl nid fuel (cleanupStep nid l n.connections[i])
      (i + 1) n hl1 hn (by omega)

lemma connShrunk_refl (nid : Nat) (m : LatticeNode) : connShrunk nid m m :=
  ⟨rfl, rfl, List.Sublist.refl _, fun _ _ => Iff.rfl⟩

lemma connShrunk_trans (nid : Nat) (a b c : LatticeNode)
    (h1 : connShrunk nid a b) (h2 : connShrunk nid b c) : connShrunk nid a c :=
  ⟨h2.1.trans h1.1, h2.2.1.trans h1.2.1, h2.2.2.1.trans h1.2.2.1,
   fun x hx => (h2.2.2.2 x hx).trans (h1.2.2.2 x hx)⟩

lemma connShrunk_removeFirst (nid : Nat) (m : LatticeNode) :
    connShrunk nid m { m with connections := removeFirst m.connections nid } :=
  ⟨rfl, rfl, removeFirst_sublist _ _,
   fun _ hx => mem_removeFirst_of_ne _ _ _ hx⟩

lemma cleanup_foldl_rel (nid : Nat) : ∀ (ys : List Nat)
    (l : List (Nat × LatticeNode)) (k : Nat) (m' : LatticeNode),
    ((ys.foldl (cleanupStep nid) l).lookup k = some m') →
    ∃ m₀, l.lookup k = some m₀ ∧ connShrunk nid m₀ m' := by
  intro ys
  induction ys with
  | nil =>
    intro l k m' h
    exact ⟨m', h, connShrunk_refl nid m'⟩
  | cons y ys ih =>
    intro l k m' h
    rw [List.foldl_cons] at h
    obtain ⟨m₁, hm₁, hrel₁⟩ := ih (cleanupStep nid l y) k m' h
    by_cases hky : k = y
    · subst hky
      unfold cleanupStep at hm₁
      by_cases hcond : nid ∈ (((findNode l k).map fun n => n.connections).getD [])
      · rw [if_pos hcond] at hm₁
        cases hlk : l.lookup k with
        | none =>
          rw [show findNode l k = none from hlk] at hcond
          simp at hcond
        | some m =>
          rw [lookup_setNode_self l k _ m hlk] at hm₁
          rw [Option.some_inj] at hm₁
          subst hm₁
          exact ⟨m, rfl, connShrunk_trans nid m _ m'
            (connShrunk_removeFirst nid m) hrel₁⟩
      · rw [if_neg hcond] at hm₁
        exact ⟨m₁, hm₁, hrel₁⟩
    · rw [lookup_cleanupStep_ne nid l y k hky] at hm₁
      exact ⟨m₁, hm₁, hrel₁⟩

lemma cleanup_foldl_clears (nid : Nat) : ∀ (ys : List Nat)
    (l : List (Nat × LatticeNode)),
    nid ∉ ys →
    (∀ k m, l.lookup k = some m → k ≠ nid → nid ∈ m.connections →
      k ∈ ys ∧ m.connections.Nodup) →
    ∀ k m', ((ys.foldl (cleanupStep nid) l).lookup k = some m') → k ≠ nid →
      nid ∉ m'.connections := by
  intro ys
  induction ys with
  | nil =>
    intro l _ H k m' h hk hmem
    exact absurd (H k m' h hk hmem).1 (List.not_mem_nil k)
  | cons y ys ih =>
    intro l hys H
    rw [List.mem_cons, not_or] at hys
    have hyne : y ≠ nid := fun hh => hys.1 hh.symm
    intro k m' h hk
    rw [List.foldl_cons] at h
    refine ih (cleanupStep nid l y) hys.2 ?_ k m' h hk
    intro k₁ m₁ h₁ hk₁ hmem₁
    by_cases hky : k₁ = y
    · subst hky
      unfold cleanupStep at h₁
      by_cases hcond : nid ∈ (((findNode l k₁).map fun n => n.connections).getD [])
      · rw [if_pos hcond] at h₁
        cases hlk : l.lookup k₁ with
        | none =>
          rw [show findNode l k₁ = none from hlk] at hcond
          simp at hcond
        | some m =>
          rw [lookup_setNode_self l k₁ _ m hlk] at h₁
          rw [Option.some_inj] at h₁
          subst h₁
          have hmc : nid ∈ m.connections := by
            rw [show findNode l k₁ = some m from hlk] at hcond
            exact hcond
          have hnd := (H k₁ m hlk hk₁ hmc).2
          exact absurd hmem₁ (not_mem_removeFirst_self m.connections nid hnd)
      · rw [if_neg hcond] at h₁
        have : nid ∉ m₁.connections := by
          rw [show findNode l k₁ = l.lookup k₁ from rfl, h₁] at hcond
          exact hcond
        exact absurd hmem₁ this
    · rw [lookup_cleanupStep_ne nid l y k₁ hky] at h₁
      have := H k₁ m₁ h₁ hk₁ hmem₁
      rcases List.mem_cons.mp this.1 with hh | hh
      · exact absurd hh hky
      · exact ⟨hh, this.2⟩

lemma lookup_eraseNode_ne (l : List (Nat × LatticeNode)) (i k : Nat)
    (h : k ≠ i) : (eraseNode l i).lookup k = l.lookup k := by
  induction l with
  | nil => rfl
  | cons p l ih =>
    obtain ⟨k', v⟩ := p
    rw [eraseNode_cons]
    by_cases hk : k' = i
    · rw [if_pos hk, lookup_pair_cons,
        if_neg (show ¬(k = k') from fun hh => h (hh.trans hk))]
      exact ih
    · rw [if_neg hk, lookup_pair_cons, lookup_pair_cons]
      by_cases hkk : k = k'
      · rw [if_pos hkk, if_pos hkk]
      · rw [if_neg hkk, if_neg hkk, ih]

lemma lookup_eraseNode_self (l : List (Nat × LatticeNode)) (i : Nat) :
    (eraseNode l i).lookup i = none := by
  induction l with
  | nil => rfl
  | cons p l ih =>
    obtain ⟨k', v⟩ := p
    rw [eraseNode_cons]
    by_cases hk : k' = i
    · rw [if_pos hk]
      exact ih
    · rw [if_neg hk, lookup_pair_cons,
        if_neg (show ¬(i = k') from fun hh => hk hh.symm)]
      exact ih

lemma bleedOne_shrink (st : ContradictionLattice) (nid : Nat)
    (hp : ProperGraph st) : ∀ (k : Nat) (m' : LatticeNode),
    (bleedOne st nid).nodes.lookup k = some m' →
    ∃ m₀, st.nodes.lookup k = some m₀ ∧ connShrunk nid m₀ m' ∧ k ≠ nid := by
  intro k m' h
  cases hfind : findNode st.nodes nid with
  | none =>
    simp only [bleedOne, hfind] at h
    have hk : k ≠ nid := by
      intro hh
      subst hh
      rw [show st.nodes.lookup k = findNode st.nodes k from rfl, hfind] at h
      exact Option.noConfusion h
    exact ⟨m', h, connShrunk_refl nid m', hk⟩
  | some n =>
    simp only [bleedOne, hfind] at h
    have hk : k ≠ nid := by
      intro hh
      subst hh
      rw [lookup_eraseNode_self] at h
      exact Option.noConfusion h
    rw [lookup_eraseNode_ne _ nid k hk] at h
    have hself : nid ∉ n.connections :=
      (hp.2 (nid, n) (mem_of_lookup_eq st.nodes nid n hfind)).2.1
    rw [bleedCleanup_eq_foldl nid n.connections.length st.nodes 0 n hfind hself
      (by omega)] at h
    obtain ⟨m₀, hm₀, hrel⟩ := cleanup_foldl_rel nid _ st.nodes k m' h
    exact ⟨m₀, hm₀, hrel, hk⟩

lemma bleedOne_clears (st : ContradictionLattice) (nid : Nat) (n : LatticeNode)
    (hp : ProperGraph st) (hfind : findNode st.nodes nid = some n) :
    ∀ (k : Nat) (m' : LatticeNode),
    (bleedOne st nid).nodes.lookup k = some m' → nid ∉ m'.connections := by
  intro k m' h
  simp only [bleedOne, hfind] at h
  have hk : k ≠ nid := by
    intro hh
    subst hh
    rw [lookup_eraseNode_self] at h
    exact Option.noConfusion h
  rw [lookup_eraseNode_ne _ nid k hk] at h
  have hself : nid ∉ n.connections :=
    (hp.2 (nid, n) (mem_of_lookup_eq st.nodes nid n hfind)).2.1
  rw [bleedCleanup_eq_foldl nid n.connections.length st.nodes 0 n hfind hself
    (by omega), List.drop_zero] at h
  refine cleanup_foldl_clears nid n.connections st.nodes hself ?_ k m' h hk
  intro k₁ m hlk hkne hmem
  have hqmem : (k₁, m) ∈ st.nodes := mem_of_lookup_eq st.nodes k₁ m hlk
  have hpmem : (nid, n) ∈ st.nodes := mem_of_lookup_eq st.nodes nid n hfind
  have hsym := (hp.2 (nid, n) hpmem).2.2.2 (k₁, m) hqmem hmem
  exact ⟨hsym, (hp.2 (k₁, m) hqmem).1⟩

lemma bleedOne_proper (st : ContradictionLattice) (nid : Nat)
    (hp : ProperGraph st) : ProperGraph (bleedOne st nid) := by
  cases hfind : findNode st.nodes nid with
  | none =>
    simp only [bleedOne, hfind]
    exact hp
  | some n =>
    have hndres : (keysOf (bleedOne st nid).nodes).Nodup := by
      rw [keysOf_bleedOne]
      exact List.Nodup.filter _ hp.1
    refine ⟨hndres, ?_⟩
    intro p hpmem
    obtain ⟨k, m'⟩ := p
    have hlook := lookup_eq_of_mem_nodup _ k m' hndres hpmem
    obtain ⟨m₀, hm₀, hrel, hkne⟩ := bleedOne_shrink st nid hp k m' hlook
    have hclear := bleedOne_clears st nid n hp hfind k m' hlook
    have hmem₀ : (k, m₀) ∈ st.nodes := mem_of_lookup_eq st.nodes k m₀ hm₀
    have hprop₀ := hp.2 (k, m₀) hmem₀
    refine ⟨?_, ?_, ?_, ?_⟩
    · exact List.Nodup.sublist hrel.2.2.1 hprop₀.1
    · intro hself
      exact hprop₀.2.1 (hrel.2.2.1.subset hself)
    · intro c hc
      have hcnid : c ≠ nid := fun hh => hclear (hh ▸ hc)
      have hc₀ : c ∈ m₀.connections := hrel.2.2.1.subset hc
      have hlive := hprop₀.2.2.1 c hc₀
      rw [keysOf_bleedOne, List.mem_filter]
      exact ⟨hlive, by simp [hcnid]⟩
    · intro q hqmem hq
      obtain ⟨k₂, m₂'⟩ := q
      have hlook₂ := lookup_eq_of_mem_nodup _ k₂ m₂' hndres hqmem
      obtain ⟨m₂₀, hm₂₀, hrel₂, hk₂ne⟩ := bleedOne_shrink st nid hp k₂ m₂' hlook₂
      have hq₀ : k ∈ m₂₀.connections := hrel₂.2.2.1.subset hq
      have hmem₂₀ : (k₂, m₂₀) ∈ st.nodes := mem_of_lookup_eq st.nodes k₂ m₂₀ hm₂₀
      have hsym := (hp.2 (k, m₀) hmem₀).2.2.2 (k₂, m₂₀) hmem₂₀ hq₀
      exact (hrel.2.2.2 k₂ hk₂ne).mpr hsym

lemma bleed_foldl_shrink : ∀ (ids : List Nat) (st : ContradictionLattice),
    ProperGraph st → ∀ (k : Nat) (m' : LatticeNode),
    (ids.foldl bleedOne st).nodes.lookup k = some m' →
    ∃ m₀, st.nodes.lookup k = some m₀ ∧ m'.connections ⊆ m₀.connections := by
  intro ids
  induction ids with
  | nil =>
    intro st _ k m' h
    exact ⟨m', h, fun x hx => hx⟩
  | cons nid ids ih =>
    intro st hp k m' h
    rw [List.foldl_cons] at h
    obtain ⟨m₁, hm₁, hsub₁⟩ := ih (bleedOne st nid) (bleedOne_proper st nid hp) k m' h
    obtain ⟨m₀, hm₀, hrel, _⟩ := bleedOne_shrink st nid hp k m₁ hm₁
    exact ⟨m₀, hm₀, fun x hx => hrel.2.2.1.subset (hsub₁ hx)⟩

lemma bleed_foldl_no_stale : ∀ (ids : List Nat) (st : ContradictionLattice),
    ProperGraph st →
    ProperGraph (ids.foldl bleedOne st) ∧
    (∀ r, r ∈ keysOf st.nodes → r ∉ keysOf (ids.foldl bleedOne st).nodes →
      ∀ (k : Nat) (m' : LatticeNode),
      (ids.foldl bleedOne st).nodes.lookup k = some m' → r ∉ m'.connections) := by
  intro ids
  induction ids with
  | nil =>
    intro st hp
    exact ⟨hp, fun r hr hnr _ _ _ => absurd hr hnr⟩
  | cons nid ids ih =>
    intro st hp
    have hp₁ := bleedOne_proper st nid hp
    obtain ⟨hpf, hstale⟩ := ih (bleedOne st nid) hp₁
    rw [List.foldl_cons]
    refine ⟨hpf, ?_⟩
    intro r hr hnr k m' h
    by_cases hr₁ : r ∈ keysOf (bleedOne st nid).nodes
    · exact hstale r hr₁ hnr k m' h
    · have hrnid : r = nid := by
        by_contra hrn
        apply hr₁
        rw [keysOf_bleedOne, List.mem_filter]
        exact ⟨hr, by simp [hrn]⟩
      subst hrnid
      obtain ⟨n, hn⟩ := lookup_of_mem_keysOf st.nodes r hr
      obtain ⟨m₁, hm₁, hsub⟩ := bleed_foldl_shrink ids (bleedOne st r) hp₁ k m' h
      have hclear := bleedOne_clears st r n hp hn k m₁ hm₁
      exact fun hmem => hclear (hsub hmem)

set_option maxHeartbeats 1600000 in
/-- C4 amended: `bleed(threshold)` takes a required threshold and has no
fraction parameter (calls with a `fraction` keyword or with no argument
raise `TypeError`); the call removes exactly the nodes with
`tension < threshold`, subtracting each removed node's tension from
`epistemic_debt`; removed ids disappear from every surviving node's
adjacency list; on an empty graph the call is a no-op; `next_id` is
untouched, so a removed id is never reissued to a later insert.  On four
nodes with tensions 0.1, 0.2, 0.3, 0.4 (edges 0–3, 2–3), `bleed(0.25)`
removes the two lowest-tension nodes, cleans node 3's adjacency list and
leaves `epistemic_debt = 0.7`. -/
theorem C4_bleed_amended (st : ContradictionLattice) (t : ℚ) :
    (st.nodes = [] → st.bleed t = st) ∧
    (st.bleed t).next_id = st.next_id ∧
    ((keysOf st.nodes).Nodup →
      tensionsOf (st.bleed t).nodes =
        tensionsOf (st.nodes.filter fun p => !decide (p.2.tension < t)) ∧
      (st.bleed t).epistemic_debt = st.epistemic_debt -
        ((st.nodes.filter fun p => decide (p.2.tension < t)).map
          fun p => p.2.tension).sum) ∧
    ((∀ k ∈ keysOf st.nodes, k < st.next_id) → ∀ (pat : Pattern) (tn : ℚ),
      ((st.bleed t).insert pat tn).2 ∉ keysOf st.nodes) ∧
    (ProperGraph st → ∀ p ∈ (st.bleed t).nodes, ∀ r, r ∈ keysOf st.nodes →
      r ∉ keysOf (st.bleed t).nodes → r ∉ p.2.connections) ∧
    ((lat4.bleed (1/4)).nodes =
      [(2, ⟨dummyPattern, 3/10, [3]⟩), (3, ⟨dummyPattern, 4/10, [2]⟩)] ∧
     (lat4.bleed (1/4)).epistemic_debt = 7/10 ∧
     (lat4.bleed (1/4)).next_id = 4) := by
  have hbl : st.bleed t =
      ((st.nodes.filter fun p => decide (p.2.tension < t)).map Prod.fst).foldl
        bleedOne st := rfl
  refine ⟨?_, ?_, ?_, ?_, ?_, lat4_bleed_nodes, lat4_bleed_debt, ?_⟩
  · intro h
    unfold ContradictionLattice.bleed
    rw [h]
    rfl
  · rw [hbl]
    exact foldl_bleedOne_next_id _ st
  · intro hnd
    have hsubl := removed_ids_sub st.nodes (fun p => decide (p.2.tension < t))
    obtain ⟨hT, hD⟩ := bleed_foldl_effect
      ((st.nodes.filter fun p => decide (p.2.tension < t)).map Prod.fst) st hnd
      (List.Nodup.sublist hsubl hnd) (fun x hx => hsubl.subset hx)
    obtain ⟨hin, hout⟩ := filter_mem_removed st.nodes
      (fun p => decide (p.2.tension < t)) hnd
    constructor
    · rw [hbl, hT, hout]
    · rw [hbl, hD, hin, ← map_tension_eq]
  · intro hb pat tn
    have hins : ((st.bleed t).insert pat tn).2 = (st.bleed t).next_id := rfl
    rw [hins, hbl, foldl_bleedOne_next_id _ st]
    intro hmem
    exact lt_irrefl _ (hb _ hmem)
  · intro hp p hpmem r hr hnr
    obtain ⟨hpf, hstale⟩ := bleed_foldl_no_stale
      ((st.nodes.filter fun p => decide (p.2.tension < t)).map Prod.fst) st hp
    obtain ⟨k, m'⟩ := p
    rw [hbl] at hpmem hnr
    have hlook := lookup_eq_of_mem_nodup _ k m' hpf.1 hpmem
    exact hstale r hr hnr k m' hlook
  · rw [lat4_bleed_eq]
    rfl

/-- C4 amended witness: on the empty lattice the call is a no-op, and on
the concrete four-node lattice the removal set, the freshness of the next
id and the adjacency cleanup all evaluate as the theorem states. -/
theorem C4_bleed_amended_witness :
    ContradictionLattice.empty.bleed (1/2) = ContradictionLattice.empty ∧
    tensionsOf (lat4.bleed (1/4)).nodes =
      tensionsOf (lat4.nodes.filter fun p => !decide (p.2.tension < (1/4 : ℚ))) ∧
    ((lat4.bleed (1/4)).insert dummyPattern 1).2 ∉ keysOf lat4.nodes ∧
    (∀ p ∈ (lat4.bleed (1/4)).nodes, ∀ r, r ∈ keysOf lat4.nodes →
      r ∉ keysOf (lat4.bleed (1/4)).nodes → r ∉ p.2.connections) := by
  refine ⟨?_, ?_, ?_, ?_⟩
  · exact (C4_bleed_amended ContradictionLattice.empty (1/2)).1 rfl
  · exact ((C4_bleed_amended lat4 (1/4)).2.2.1 (by decide)).1
  · exact (C4_bleed_amended lat4 (1/4)).2.2.2.1 (by decide) dummyPattern 1
  · exact (C4_bleed_amended lat4 (1/4)).2.2.2.2.1 (by decide)

end Solace
